import Mathlib

/-!
# TinyWiki core: a shallow embedding with verified properties

This development models the client-side core of the TinyWiki viewer:
glossary extraction, the inline markup formatter, section navigation
history, the read-aloud (speech synthesis) state machine, the Markdown
export, and the share-link encode/decode pipeline
(`JSON.stringify` / `encodeURIComponent` / `btoa` and its inverse).

Strings are modelled as `List Char` (`Str`).  JavaScript string builtins
(`trim`, `toLowerCase`, `Number`, `split`, regular expressions used by the
code) are modelled faithfully on that representation; `toLowerCase` /
`toUpperCase` are modelled on the ASCII range, which covers every use in
the repository.  All definitions are executable by the kernel (structural
or fuel-bounded recursion), so concrete runs of the code can be checked
with `rfl` / `decide`.
-/

set_option linter.unusedVariables false

abbrev Str := List Char

def lowerStr (s : Str) : Str := s.map Char.toLower

/-- The JavaScript `\s` character class (WhiteSpace ∪ LineTerminator). -/
def jsWhitespace (c : Char) : Bool :=
  c.toNat == 32 || c.toNat == 9 || c.toNat == 10 || c.toNat == 13 ||
  c.toNat == 11 || c.toNat == 12 || c.toNat == 0xa0 || c.toNat == 0x1680 ||
  (0x2000 ≤ c.toNat && c.toNat ≤ 0x200a) || c.toNat == 0x2028 ||
  c.toNat == 0x2029 || c.toNat == 0x202f || c.toNat == 0x205f ||
  c.toNat == 0x3000 || c.toNat == 0xfeff

/-- JavaScript `String.prototype.trim`. -/
def trimStr (s : Str) : Str :=
  ((s.dropWhile jsWhitespace).reverse.dropWhile jsWhitespace).reverse

def isDigitC (c : Char) : Bool := 48 ≤ c.toNat && c.toNat ≤ 57

def isHexC (c : Char) : Bool :=
  isDigitC c || (97 ≤ c.toLower.toNat && c.toLower.toNat ≤ 102)

def isOctC (c : Char) : Bool := 48 ≤ c.toNat && c.toNat ≤ 55

def isBinC (c : Char) : Bool := c.toNat == 48 || c.toNat == 49

/-- Exponent digits after the `e`/`E`: optional sign, then one or more digits. -/
def expTail (r : Str) : Bool :=
  match r with
  | '+' :: t => !t.isEmpty && t.all isDigitC
  | '-' :: t => !t.isEmpty && t.all isDigitC
  | t => !t.isEmpty && t.all isDigitC

/-- Optional exponent part of a JS decimal numeric literal. -/
def expPart (r : Str) : Bool :=
  match r with
  | [] => true
  | 'e' :: t => expTail t
  | 'E' :: t => expTail t
  | _ => false

/-- Unsigned JS decimal literal: `digits [. digits] [exp]` or `. digits [exp]`. -/
def decimalLit (r : Str) : Bool :=
  let d1 := r.takeWhile isDigitC
  let rest := r.drop d1.length
  if d1.isEmpty then
    match rest with
    | '.' :: r2 =>
      let d2 := r2.takeWhile isDigitC
      !d2.isEmpty && expPart (r2.drop d2.length)
    | _ => false
  else
    match rest with
    | [] => true
    | '.' :: r2 =>
      let d2 := r2.takeWhile isDigitC
      expPart (r2.drop d2.length)
    | _ => expPart rest

/-- Unsigned radix literals accepted by JS `Number`: `0x…`, `0o…`, `0b…`. -/
def radixLit (r : Str) : Bool :=
  match r with
  | '0' :: x :: t =>
    ((x == 'x' || x == 'X') && !t.isEmpty && t.all isHexC) ||
    ((x == 'o' || x == 'O') && !t.isEmpty && t.all isOctC) ||
    ((x == 'b' || x == 'B') && !t.isEmpty && t.all isBinC)
  | _ => false

/-- Models `!isNaN(Number(s))`: does the string parse entirely as a JS number? -/
def jsIsNumeric (s : Str) : Bool :=
  let t := trimStr s
  match t with
  | [] => true
  | '+' :: r => r == ("Infinity").toList || decimalLit r
  | '-' :: r => r == ("Infinity").toList || decimalLit r
  | _ => (t == ("Infinity").toList) || decimalLit t || radixLit t

/-!
## Glossary extraction

The extractors scan section content with `/\*\*([^*]+)\*\*/g`.  A match at
a given position is `**`, a non-empty maximal run of non-`*` characters,
then `**`; on failure the scan advances one character (as `RegExp.exec`
does), and after a match it continues right after the closing delimiter.
-/

/-- Try `/\*\*([^*]+)\*\*/` anchored at the head: inner run and the text
after the closing delimiter (the `restOfText` the extractors slice off). -/
def glossMatchAt (s : Str) : Option (Str × Str) :=
  match s with
  | '*' :: '*' :: rest =>
    let run := rest.takeWhile (fun c => c ≠ '*')
    let after := rest.drop run.length
    if run.isEmpty then none
    else
      match after with
      | '*' :: '*' :: tail => some (run, tail)
      | _ => none
  | _ => none

def glossScanF : Nat → Str → List (Str × Str)
  | 0, _ => []
  | _, [] => []
  | fuel + 1, c :: rest =>
    match glossMatchAt (c :: rest) with
    | some (run, restText) => (run, restText) :: glossScanF fuel restText
    | none => glossScanF fuel rest

/-- All matches of `/\*\*([^*]+)\*\*/g` over a content string, paired with
the text following each match. -/
def glossMatches (s : Str) : List (Str × Str) := glossScanF s.length s

/-- Character class `[:,\s—–-]` of the definition lead-in regex. -/
def classChar (c : Char) : Bool :=
  c == ':' || c == ',' || jsWhitespace c ||
  c.toNat == 0x2014 || c.toNat == 0x2013 || c == '-'

/-- Case-insensitive keyword test at the head of `s` (`/i` flag). -/
def isKwAtHead (kw : Str) (s : Str) : Bool :=
  (s.take kw.length).map Char.toLower == kw

/-- Maximal run of `[^.\n]` at the head of `t`. -/
def dRun (t : Str) : Str := t.takeWhile (fun c => c ≠ '.' && c ≠ '\n')

/-- The final `[^.\n]` group: a run of at least `dmin` characters, optionally
capped at `dcap` (greedy, and it is the last regex element). -/
def dAttempt (dmin : Nat) (dcap : Option Nat) (t : Str) : Option Str :=
  let run := dRun t
  if dmin ≤ run.length then
    some (match dcap with | some cap => run.take cap | none => run)
  else none

/-- `\s*` then the `[^.\n]` group, trying the largest whitespace count first
(greedy `\s*` with backtracking). -/
def tryCDown (dmin : Nat) (dcap : Option Nat) (s : Str) : Nat → Option Str
  | 0 => dAttempt dmin dcap s
  | c + 1 =>
    match dAttempt dmin dcap (s.drop (c + 1)) with
    | some r => some r
    | none => tryCDown dmin dcap s c

/-- The optional keyword alternation `(?:is|are|refers to|means|…)?`,
trying the alternatives in order and then the empty option. -/
def tryKws (dmin : Nat) (dcap : Option Nat) : List Str → Str → Option Str
  | [], s => tryCDown dmin dcap s (s.takeWhile jsWhitespace).length
  | kw :: rest, s =>
    if isKwAtHead kw s then
      match (let t := s.drop kw.length
             tryCDown dmin dcap t (t.takeWhile jsWhitespace).length) with
      | some r => some r
      | none => tryKws dmin dcap rest s
    else tryKws dmin dcap rest s

/-- The leading `[:,\s—–-]+`, greedy with backtracking (longest first,
at least one character). -/
def tryADown (dmin : Nat) (dcap : Option Nat) (kws : List Str) (s : Str) :
    Nat → Option Str
  | 0 => none
  | a + 1 =>
    match tryKws dmin dcap kws (s.drop (a + 1)) with
    | some r => some r
    | none => tryADown dmin dcap kws s a

/-- Full model of `/^([:,\s—–-]+(?:kw…)?\s*)([^.\n]…)/i` applied to the text
after a term: returns the second capture group on success. -/
def defRegexMatch (dmin : Nat) (dcap : Option Nat) (kws : List Str)
    (rest : Str) : Option Str :=
  tryADown dmin dcap kws rest (rest.takeWhile classChar).length

def keywords3 : List Str :=
  [("is").toList, ("are").toList, ("refers to").toList, ("means").toList]

def keywordsTsx : List Str := keywords3 ++ [("represents").toList]

/-- JS `s.charAt(0).toUpperCase() + s.slice(1)`. -/
def capFirst (s : Str) : Str :=
  match s with
  | [] => []
  | c :: r => c.toUpper :: r

/-- Definition post-processing of the `part_003` extractor: trim, truncate at
200 characters with an ellipsis, capitalise the first character; empty
string when the lead-in pattern does not match. -/
def defExtract3 (rest : Str) : Str :=
  match defRegexMatch 1 none keywords3 rest with
  | none => []
  | some g2 =>
    let d := trimStr g2
    let d' := if 200 < d.length then d.take 200 ++ ("...").toList else d
    capFirst d'

/-- Insertion-ordered association list modelling a JS `Map<string,string>`. -/
abbrev GMap := List (Str × Str)

def mapHasExact (m : GMap) (k : Str) : Bool := m.any (fun p => p.1 == k)

/-- JS `Map.set`: update in place when the key exists, append when fresh. -/
def mapSet (m : GMap) (k v : Str) : GMap :=
  match m with
  | [] => [(k, v)]
  | (k', v') :: rest => if k' == k then (k', v) :: rest else (k', v') :: mapSet rest k v

def mapGet (m : GMap) (k : Str) : Option Str :=
  (m.find? (fun p => p.1 == k)).map (fun p => p.2)

/-- First entry whose key lowercases to `lt` (models
`Array.from(map.keys()).find(k => k.toLowerCase() === lt)` plus the get). -/
def findCI (m : GMap) (lt : Str) : Option (Str × Str) :=
  m.find? (fun p => lowerStr p.1 == lt)

def hasCI (m : GMap) (lt : Str) : Bool := m.any (fun p => lowerStr p.1 == lt)

structure WikiSec where
  heading : Str
  content : Str
  keyPoints : List Str
  citations : List Str

structure Wiki where
  title : Str
  summary : Str
  readingTimeMinutes : Nat
  sections : List WikiSec
  relatedTopics : List Str

/-- All raw regex matches over all sections, in document order. -/
def sectionsCands (secs : List WikiSec) : List (Str × Str) :=
  secs.flatMap (fun s => glossMatches s.content)

/-- One step of the `part_003` extractor loop.  The `Map.set` at the end is
only reached on a key that is fresh (even case-insensitively), where JS
`Map.set` appends. -/
def gloss3Step (m : GMap) (cand : Str × Str) : GMap :=
  if (trimStr cand.1).length < 2 || jsIsNumeric (trimStr cand.1) then m
  else if hasCI m (lowerStr (trimStr cand.1)) then m
  else m ++ [(trimStr cand.1, defExtract3 cand.2)]

/-- The `part_003` `glossaryMap` (also the shape of the claimed invariant). -/
def glossaryMap3 (d : Wiki) : GMap :=
  (sectionsCands d.sections).foldl gloss3Step []

def fallbackDefTsx : Str :=
  ("Essential concept defined within the context of this synthesis.").toList

/-- One step of the `components/WikiRenderer.tsx` extractor loop: no
case-insensitive duplicate check; a definition longer than 5 characters is
always `Map.set`, overwriting an existing entry for the same exact key. -/
def glossTsxStep (m : GMap) (cand : Str × Str) : GMap :=
  if (trimStr cand.1).length < 2 || jsIsNumeric (trimStr cand.1) then m
  else
    match defRegexMatch 1 none keywordsTsx cand.2 with
    | some g2 =>
      if 5 < (trimStr g2).length then mapSet m (trimStr cand.1) (trimStr g2) else m
    | none =>
      if mapHasExact m (trimStr cand.1) then m
      else mapSet m (trimStr cand.1) fallbackDefTsx

def glossaryMapTsx (d : Wiki) : GMap :=
  (sectionsCands d.sections).foldl glossTsxStep []

/-- One step of the `part_005` extractor loop: only the length guard (no
numeric-term guard); `[^.\n]{5,200}` group; definition is trim + `"..."`. -/
def gloss5Step (m : GMap) (cand : Str × Str) : GMap :=
  if (trimStr cand.1).length < 2 then m
  else
    match defRegexMatch 5 (some 200) keywords3 cand.2 with
    | some g2 => mapSet m (trimStr cand.1) (trimStr g2 ++ ("...").toList)
    | none =>
      if mapHasExact m (trimStr cand.1) then m
      else mapSet m (trimStr cand.1) []

def glossaryMap5 (d : Wiki) : GMap :=
  (sectionsCands d.sections).foldl gloss5Step []

/-- Candidates of a raw match stream that pass the `part_003` guards,
with terms trimmed. -/
def validCandsOf (cands : List (Str × Str)) : List (Str × Str) :=
  cands.filterMap (fun c =>
    if (trimStr c.1).length < 2 || jsIsNumeric (trimStr c.1) then none
    else some (trimStr c.1, c.2))

/-- Candidates that pass the `part_003` guards, with terms trimmed:
the stream the first-occurrence-wins property quantifies over. -/
def validCands3 (d : Wiki) : List (Str × Str) :=
  validCandsOf (sectionsCands d.sections)

/-!
## Inline markup formatter (`formatContent`)

`content.split(/(\*\*.*?\*\*)/g)` keeps the captured delimiter runs in the
output.  The lazy `.*?` (with `.` not matching a newline) closes at the
earliest following `**`.
-/

inductive Frag where
  | text (s : Str)
  | term (t : Str) (defn : Option Str)

/-- Lazy inner scan: shortest newline-free run until a closing `**`. -/
def lazyInner : Str → Option (Str × Str)
  | '*' :: '*' :: r => some ([], r)
  | c :: r =>
    if c == '\n' then none
    else (lazyInner r).map (fun p => (c :: p.1, p.2))
  | [] => none

def splitScanF : Nat → Str → Str → List Str
  | 0, pre, s => [pre.reverse ++ s]
  | _, pre, [] => [pre.reverse]
  | fuel + 1, pre, '*' :: '*' :: tail =>
    match lazyInner tail with
    | some (x, after) =>
      pre.reverse :: ('*' :: '*' :: x ++ ['*', '*']) :: splitScanF fuel [] after
    | none => splitScanF fuel ('*' :: pre) ('*' :: tail)
  | fuel + 1, pre, c :: rest => splitScanF fuel (c :: pre) rest

/-- Model of `content.split(/(\*\*.*?\*\*)/g)` (captures included). -/
def splitScan (s : Str) : List Str := splitScanF (s.length + 1) [] s

def jsStartsWith2Star (p : Str) : Bool :=
  match p with
  | '*' :: '*' :: _ => true
  | _ => false

/-- `endsWith('**')`; `**` is a palindrome so the reversed test is exact. -/
def jsEndsWith2Star (p : Str) : Bool := jsStartsWith2Star p.reverse

/-- JS `part.slice(2, -2)`. -/
def slice2m2 (p : Str) : Str := (p.take (p.length - 2)).drop 2

/-- How one split part is rendered: a captured `**…**` part becomes a term
fragment with a case-insensitive glossary lookup; anything else is plain
text. -/
def fragOf (gm : GMap) (part : Str) : Frag :=
  if jsStartsWith2Star part && jsEndsWith2Star part then
    match findCI gm (lowerStr (slice2m2 part)) with
    | some p => Frag.term (slice2m2 part) (some p.2)
    | none => Frag.term (slice2m2 part) none
  else Frag.text part

/-- The `part_003` `formatContent`: split, then render each part. -/
def formatContent3 (gm : GMap) (content : Str) : List Frag :=
  if content.isEmpty then [] else (splitScan content).map (fragOf gm)

/-!
## Section navigator / history stack (`part_003`)
-/

structure NavState where
  history : List Nat
  historyIndex : Nat
  activeSection : Nat
  collapsed : List Nat

/-- `updateHistory`: no-op when navigating to the entry at the cursor;
otherwise truncate the forward portion and append. -/
def updateHistory (st : NavState) (i : Nat) : NavState :=
  if st.history.get? st.historyIndex == some i then st
  else
    let nh := st.history.take (st.historyIndex + 1) ++ [i]
    { st with history := nh, historyIndex := nh.length - 1 }

/-- `handleScrollToSection`: expand, update history, set active. -/
def handleScrollToSection (st : NavState) (i : Nat) : NavState :=
  let st1 := { st with collapsed := st.collapsed.erase i }
  let st2 := updateHistory st1 i
  { st2 with activeSection := i }

/-- `handleHistoryBack`: move the cursor back (no-op at the boundary),
activate and expand the section at the new cursor. -/
def handleHistoryBack (st : NavState) : NavState :=
  if 0 < st.historyIndex then
    let ni := st.historyIndex - 1
    match st.history.get? ni with
    | some idx =>
      { st with historyIndex := ni, activeSection := idx,
                collapsed := st.collapsed.erase idx }
    | none => { st with historyIndex := ni }
  else st

/-!
## Read-aloud controller (`handleTTS` / `stopTTS` of `part_003`)

The speech engine is modelled explicitly: at most one utterance is loaded
(section index plus phase).  Engine callbacks (`onstart`, `onend`, …) are
events guarded by the engine state; `synth.cancel()` drops the utterance
and fires its `onend` handler (which the code uses to reset the state),
modelling the browsers' synchronous delivery of the cancellation events
before a subsequently queued utterance starts.
-/

inductive TtsStatus where
  | playing
  | paused
  | stopped
deriving DecidableEq

structure TtsState where
  idx : Int
  status : TtsStatus
deriving DecidableEq

inductive EnginePhase where
  | pending
  | speaking
  | pausedE
deriving DecidableEq

structure SpeechSys where
  tts : TtsState
  engine : Option (Nat × EnginePhase)
deriving DecidableEq

inductive Cmd where
  | cancel
  | speak (i : Nat)
  | pauseCmd
  | resumeCmd
deriving DecidableEq

inductive SpeechEv where
  | req (i : Nat)
  | engStart
  | engEnd
  | engPause
  | engResume
  | engError
  | stopBtn
  | docChange

def initSpeech : SpeechSys := ⟨⟨-1, .stopped⟩, none⟩

/-- `synth.cancel()`: drop the loaded utterance; its `onend` handler resets
the component state to stopped. -/
def cancelEngine (s : SpeechSys) : SpeechSys × List Cmd :=
  match s.engine with
  | none => (s, [Cmd.cancel])
  | some _ => (⟨⟨-1, .stopped⟩, none⟩, [Cmd.cancel])

def pauseEngine : Option (Nat × EnginePhase) → Option (Nat × EnginePhase)
  | some (k, .speaking) => some (k, .pausedE)
  | e => e

def resumeEngine : Option (Nat × EnginePhase) → Option (Nat × EnginePhase)
  | some (k, .pausedE) => some (k, .speaking)
  | e => e

/-- `handleTTS(index, …)`: same index toggles pause/resume; a different
index cancels the current utterance and then speaks the new one. -/
def handleTTSstep (s : SpeechSys) (i : Nat) : SpeechSys × List Cmd :=
  if s.tts.idx == (i : Int) then
    match s.tts.status with
    | .playing => (⟨⟨(i : Int), .paused⟩, pauseEngine s.engine⟩, [Cmd.pauseCmd])
    | .paused => (⟨⟨(i : Int), .playing⟩, resumeEngine s.engine⟩, [Cmd.resumeCmd])
    | .stopped => (s, [])
  else
    let p := cancelEngine s
    (⟨p.1.tts, some (i, .pending)⟩, p.2 ++ [Cmd.speak i])

def speechStep (s : SpeechSys) (e : SpeechEv) : SpeechSys × List Cmd :=
  match e with
  | .req i => handleTTSstep s i
  | .engStart =>
    match s.engine with
    | some (k, .pending) => (⟨⟨(k : Int), .playing⟩, some (k, .speaking)⟩, [])
    | _ => (s, [])
  | .engEnd =>
    match s.engine with
    | some (_, .speaking) => (⟨⟨-1, .stopped⟩, none⟩, [])
    | _ => (s, [])
  | .engPause =>
    match s.engine with
    | some (k, .speaking) => (⟨⟨s.tts.idx, .paused⟩, some (k, .pausedE)⟩, [])
    | _ => (s, [])
  | .engResume =>
    match s.engine with
    | some (k, .pausedE) => (⟨⟨s.tts.idx, .playing⟩, some (k, .speaking)⟩, [])
    | _ => (s, [])
  | .engError =>
    match s.engine with
    | some _ => (⟨⟨-1, .stopped⟩, none⟩, [])
    | none => (s, [])
  | .stopBtn => (⟨⟨-1, .stopped⟩, none⟩, (cancelEngine s).2)
  | .docChange => (⟨⟨-1, .stopped⟩, none⟩, [Cmd.cancel])

/-- Requests come from the per-section buttons, so their index is a real
section index. -/
def evOk (n : Nat) : SpeechEv → Prop
  | .req i => i < n
  | _ => True

inductive SpeechReachable (n : Nat) : SpeechSys → Prop where
  | init : SpeechReachable n initSpeech
  | step {s : SpeechSys} (e : SpeechEv) :
      SpeechReachable n s → evOk n e → SpeechReachable n (speechStep s e).1

/-- Section `i` is in a non-stopped status. -/
def nonStopped (s : SpeechSys) (i : Int) : Prop :=
  s.tts.status ≠ TtsStatus.stopped ∧ s.tts.idx = i

/-- Coupling invariant between the component state and the engine: a
speaking/paused utterance matches the component's status and active
index, and any non-stopped status points at a loaded utterance for a real
section. -/
def speechInv (n : Nat) (s : SpeechSys) : Prop :=
  (∀ k : Nat, s.engine = some (k, EnginePhase.speaking) →
    s.tts = ⟨(k : Int), TtsStatus.playing⟩) ∧
  (∀ k : Nat, s.engine = some (k, EnginePhase.pausedE) →
    s.tts = ⟨(k : Int), TtsStatus.paused⟩) ∧
  (∀ (k : Nat) (ph : EnginePhase), s.engine = some (k, ph) → k < n) ∧
  (s.tts.status = TtsStatus.playing →
    ∃ k : Nat, k < n ∧ s.tts.idx = (k : Int) ∧ s.engine = some (k, EnginePhase.speaking)) ∧
  (s.tts.status = TtsStatus.paused →
    ∃ k : Nat, k < n ∧ s.tts.idx = (k : Int) ∧ s.engine = some (k, EnginePhase.pausedE))

/-!
## Markdown export (`handleExportMD` of `part_003`)
-/

def nl2 : Str := ['\n', '\n']

def mdSection (s : WikiSec) : Str :=
  ("## ").toList ++ s.heading ++ nl2 ++ s.content ++ nl2 ++
    ("### Key Points\n").toList ++
    (List.intercalate ['\n'] (s.keyPoints.map (fun p => '-' :: ' ' :: p))) ++ nl2

def exportMD (d : Wiki) : Str :=
  ('#' :: ' ' :: d.title) ++ nl2 ++ d.summary ++ nl2 ++
    (d.sections.map mdSection).flatten

/-!
## Base64 (`btoa` / `atob`)

`atob` follows the forgiving-base64 decode: strip ASCII whitespace, strip
up to two trailing `=` when the length is a multiple of 4, reject a
leftover length of 1 and any character outside the alphabet, and discard
the spare bits of a final 2- or 3-character group.
-/

def b64Alphabet : Str :=
  ("ABCDEFGHIJKLMNOPQRSTUVWXYZabcdefghijklmnopqrstuvwxyz0123456789+/").toList

def b64Char (n : Nat) : Char := b64Alphabet.getD n 'A'

def b64IndexAux : List Char → Nat → Char → Option Nat
  | [], _, _ => none
  | a :: rest, i, c => if a == c then some i else b64IndexAux rest (i + 1) c

def b64Index (c : Char) : Option Nat := b64IndexAux b64Alphabet 0 c

def b64Encode : List Nat → Str
  | [] => []
  | [a] => [b64Char (a / 4), b64Char (a % 4 * 16), '=', '=']
  | [a, b] => [b64Char (a / 4), b64Char (a % 4 * 16 + b / 16), b64Char (b % 16 * 4), '=']
  | a :: b :: c :: rest =>
    b64Char (a / 4) :: b64Char (a % 4 * 16 + b / 16) ::
      b64Char (b % 16 * 4 + c / 64) :: b64Char (c % 64) :: b64Encode rest

/-- HTML ASCII whitespace (stripped by forgiving-base64). -/
def asciiWsB (c : Char) : Bool :=
  c == ' ' || c == '\t' || c == '\n' || c == '\x0c' || c == '\r'

/-- Remove up to two trailing `=` of the reversed string. -/
def dropPad2 (rev : Str) : Str :=
  match rev with
  | c1 :: r1 =>
    if c1 = '=' then
      match r1 with
      | c2 :: r2 => if c2 = '=' then r2 else r1
      | [] => r1
    else rev
  | [] => rev

def stripPad (t : Str) : Str :=
  if t.length % 4 == 0 then (dropPad2 t.reverse).reverse else t

def decode4 : Str → Option (List Nat)
  | [] => some []
  | [c1, c2] => do
    let i1 ← b64Index c1
    let i2 ← b64Index c2
    pure [i1 * 4 + i2 / 16]
  | [c1, c2, c3] => do
    let i1 ← b64Index c1
    let i2 ← b64Index c2
    let i3 ← b64Index c3
    pure [i1 * 4 + i2 / 16, i2 % 16 * 16 + i3 / 4]
  | c1 :: c2 :: c3 :: c4 :: rest => do
    let i1 ← b64Index c1
    let i2 ← b64Index c2
    let i3 ← b64Index c3
    let i4 ← b64Index c4
    let tl ← decode4 rest
    pure ((i1 * 4 + i2 / 16) :: (i2 % 16 * 16 + i3 / 4) :: (i3 % 4 * 64 + i4) :: tl)
  | _ => none

def atobBytes (s : Str) : Option (List Nat) :=
  decode4 (stripPad (s.filter (fun c => !asciiWsB c)))

def atobStr (s : Str) : Option Str :=
  (atobBytes s).map (fun bs => bs.map Char.ofNat)

/-- `btoa` throws on any code unit above 255. -/
def btoaStr (s : Str) : Option Str :=
  if s.all (fun c => c.toNat < 256) then some (b64Encode (s.map Char.toNat))
  else none

/-!
## `encodeURIComponent` / `decodeURIComponent`

Unreserved characters pass through; everything else is UTF-8 encoded and
percent-escaped (uppercase hex).  Decoding tokenises the input into raw
characters and `%XX` bytes, then UTF-8-decodes the escaped bytes
(continuation bytes must themselves be escapes), rejecting malformed,
overlong or surrogate sequences as `decodeURIComponent` does.
-/

def uriSafe (c : Char) : Bool :=
  (65 ≤ c.toNat && c.toNat ≤ 90) || (97 ≤ c.toNat && c.toNat ≤ 122) ||
  (48 ≤ c.toNat && c.toNat ≤ 57) ||
  c == '-' || c == '_' || c == '.' || c == '!' || c == '~' || c == '*' ||
  c == '\'' || c == '(' || c == ')'

def utf8EncodeChar (n : Nat) : List Nat :=
  if n < 0x80 then [n]
  else if n < 0x800 then [0xc0 + n / 64, 0x80 + n % 64]
  else if n < 0x10000 then [0xe0 + n / 4096, 0x80 + n / 64 % 64, 0x80 + n % 64]
  else [0xf0 + n / 262144, 0x80 + n / 4096 % 64, 0x80 + n / 64 % 64, 0x80 + n % 64]

def hexDigitUp (n : Nat) : Char := ("0123456789ABCDEF").toList.getD n '0'

def percentByte (b : Nat) : Str := ['%', hexDigitUp (b / 16), hexDigitUp (b % 16)]

def uriEncodeChar (c : Char) : Str :=
  if uriSafe c then [c] else (utf8EncodeChar c.toNat).flatMap percentByte

def uriEncode (s : Str) : Str := s.flatMap uriEncodeChar

def hexVal (c : Char) : Option Nat :=
  if 48 ≤ c.toNat ∧ c.toNat ≤ 57 then some (c.toNat - 48)
  else if 65 ≤ c.toNat ∧ c.toNat ≤ 70 then some (c.toNat - 55)
  else if 97 ≤ c.toNat ∧ c.toNat ≤ 102 then some (c.toNat - 87)
  else none

def uriTokens : Str → Option (List (Char ⊕ Nat))
  | [] => some []
  | c :: rest =>
    if c = '%' then
      match rest with
      | h1 :: h2 :: rest' => do
        let d1 ← hexVal h1
        let d2 ← hexVal h2
        let ts ← uriTokens rest'
        pure (Sum.inr (d1 * 16 + d2) :: ts)
      | _ => none
    else (uriTokens rest).map (fun ts => Sum.inl c :: ts)

def contB (b : Nat) : Bool := 0x80 ≤ b && b < 0xc0

/-- A continuation byte: an escaped byte in `0x80…0xbf`. -/
def contByte : (Char ⊕ Nat) → Option Nat
  | Sum.inr b => if contB b then some b else none
  | Sum.inl _ => none

/-- Two-byte UTF-8 sequence: the lead byte `b` has been consumed, the
continuation byte is expected at the head of the remaining tokens. -/
def dec2 (rec : List (Char ⊕ Nat) → Option Str) (b : Nat) :
    List (Char ⊕ Nat) → Option Str
  | t1 :: r =>
    (contByte t1).bind (fun b1 =>
      (rec r).map (fun s => Char.ofNat ((b - 0xc0) * 64 + (b1 - 0x80)) :: s))
  | [] => none

/-- Three-byte UTF-8 sequence: two continuation bytes follow the lead
byte `b`; overlong encodings and surrogate code points are rejected. -/
def dec3 (rec : List (Char ⊕ Nat) → Option Str) (b : Nat) :
    List (Char ⊕ Nat) → Option Str
  | t1 :: t2 :: r =>
    (contByte t1).bind (fun b1 => (contByte t2).bind (fun b2 =>
      if 0x800 ≤ (b - 0xe0) * 4096 + (b1 - 0x80) * 64 + (b2 - 0x80) ∧
          ¬ (0xd800 ≤ (b - 0xe0) * 4096 + (b1 - 0x80) * 64 + (b2 - 0x80) ∧
             (b - 0xe0) * 4096 + (b1 - 0x80) * 64 + (b2 - 0x80) < 0xe000) then
        (rec r).map (fun s =>
          Char.ofNat ((b - 0xe0) * 4096 + (b1 - 0x80) * 64 + (b2 - 0x80)) :: s)
      else none))
  | _ => none

/-- Four-byte UTF-8 sequence: three continuation bytes follow the lead
byte `b`; the decoded value must be a supplementary-plane code point. -/
def dec4 (rec : List (Char ⊕ Nat) → Option Str) (b : Nat) :
    List (Char ⊕ Nat) → Option Str
  | t1 :: t2 :: t3 :: r =>
    (contByte t1).bind (fun b1 => (contByte t2).bind (fun b2 =>
      (contByte t3).bind (fun b3 =>
        if 0x10000 ≤ (b - 0xf0) * 262144 + (b1 - 0x80) * 4096 +
              (b2 - 0x80) * 64 + (b3 - 0x80) ∧
            (b - 0xf0) * 262144 + (b1 - 0x80) * 4096 +
              (b2 - 0x80) * 64 + (b3 - 0x80) < 0x110000 then
          (rec r).map (fun s =>
            Char.ofNat ((b - 0xf0) * 262144 + (b1 - 0x80) * 4096 +
              (b2 - 0x80) * 64 + (b3 - 0x80)) :: s)
        else none)))
  | _ => none

/-- One decoding step of the UTF-8 byte/char token stream: `rec` is the
continuation applied to the tokens remaining after the first decoded
code point. Non-recursive so its equations are transparent. -/
def decStep (rec : List (Char ⊕ Nat) → Option Str) :
    List (Char ⊕ Nat) → Option Str
  | [] => some []
  | Sum.inl c :: rest => (rec rest).map (fun s => c :: s)
  | Sum.inr b :: rest =>
    if b < 0x80 then (rec rest).map (fun s => Char.ofNat b :: s)
    else if 0xc2 ≤ b ∧ b < 0xe0 then dec2 rec b rest
    else if 0xe0 ≤ b ∧ b < 0xf0 then dec3 rec b rest
    else if 0xf0 ≤ b ∧ b < 0xf5 then dec4 rec b rest
    else none

/-- Fuelled iteration of `decStep`; every step consumes at least one
token, so fuel equal to the token count is always sufficient. -/
def decTokF : Nat → List (Char ⊕ Nat) → Option Str
  | 0, ts => if ts.isEmpty then some [] else none
  | n + 1, ts => decStep (decTokF n) ts

def decodeTokens (ts : List (Char ⊕ Nat)) : Option Str := decTokF ts.length ts

def uriDecode (s : Str) : Option Str := (uriTokens s).bind decodeTokens

/-!
## JSON (`JSON.stringify` / `JSON.parse`)

Numbers are modelled by the natural-number literals the application's
schema produces (`readingTimeMinutes` and array indices); strings, arrays,
objects, booleans and null are modelled in full.  The serializer is the
compact `JSON.stringify` format (short escapes, `\u00XX` for the remaining
control characters); the parser accepts the JSON grammar over this value
space, with the whitespace skipping of `JSON.parse`.
-/

inductive Json where
  | null
  | jbool (b : Bool)
  | num (n : Nat)
  | jstr (s : Str)
  | arr (elems : List Json)
  | obj (fields : List (Str × Json))

def digitChar (d : Nat) : Char := Char.ofNat (48 + d)

def digitsAux : Nat → Nat → Str
  | 0, _ => []
  | fuel + 1, n =>
    if n < 10 then [digitChar n]
    else digitsAux fuel (n / 10) ++ [digitChar (n % 10)]

def digitsOf (n : Nat) : Str := digitsAux (n + 1) n

def hexDigitLow (n : Nat) : Char := ("0123456789abcdef").toList.getD n '0'

def escapeChar (c : Char) : Str :=
  if c == '"' then ['\\', '"']
  else if c == '\\' then ['\\', '\\']
  else if c == '\n' then ['\\', 'n']
  else if c == '\r' then ['\\', 'r']
  else if c == '\t' then ['\\', 't']
  else if c.toNat == 8 then ['\\', 'b']
  else if c.toNat == 12 then ['\\', 'f']
  else if c.toNat < 32 then
    ['\\', 'u', '0', '0', hexDigitLow (c.toNat / 16), hexDigitLow (c.toNat % 16)]
  else [c]

def serStrBody (s : Str) : Str := s.flatMap escapeChar

def serStr (s : Str) : Str := '"' :: serStrBody s ++ ['"']

mutual

def serJson : Json → Str
  | .null => ("null").toList
  | .jbool true => ("true").toList
  | .jbool false => ("false").toList
  | .num n => digitsOf n
  | .jstr s => serStr s
  | .arr l => '[' :: serItems l ++ [']']
  | .obj l => '\x7b' :: serFields l ++ ['\x7d']

def serItems : List Json → Str
  | [] => []
  | [j] => serJson j
  | j :: rest => serJson j ++ ',' :: serItems rest

def serFields : List (Str × Json) → Str
  | [] => []
  | [(k, v)] => serStr k ++ ':' :: serJson v
  | (k, v) :: rest => serStr k ++ ':' :: serJson v ++ ',' :: serFields rest

end

def jsonWs (c : Char) : Bool := c == ' ' || c == '\t' || c == '\n' || c == '\r'

def skipWs (s : Str) : Str := s.dropWhile jsonWs

def hex4Val (h1 h2 h3 h4 : Char) : Option Nat := do
  let d1 ← hexVal h1
  let d2 ← hexVal h2
  let d3 ← hexVal h3
  let d4 ← hexVal h4
  pure (d1 * 4096 + d2 * 256 + d3 * 16 + d4)

def unescape (e : Char) : Option Char :=
  if e == '"' then some '"'
  else if e == '\\' then some '\\'
  else if e == '/' then some '/'
  else if e == 'n' then some '\n'
  else if e == 't' then some '\t'
  else if e == 'r' then some '\r'
  else if e == 'b' then some (Char.ofNat 8)
  else if e == 'f' then some (Char.ofNat 12)
  else none

/-- A surrogate-pair continuation: after a `\uXXXX` escape decoding to a
high surrogate `v`, a second `\uXXXX` escape must follow and decode to a
low surrogate; the pair combines into one supplementary scalar. -/
def psbSur (rec : Str → Option (Str × Str)) (v : Nat) : Str → Option (Str × Str)
  | b1 :: e2 :: g1 :: g2 :: g3 :: g4 :: rest4 =>
    if b1 = '\\' ∧ e2 = 'u' then
      (hex4Val g1 g2 g3 g4).bind (fun w =>
        if 0xd800 ≤ v ∧ v < 0xdc00 ∧ 0xdc00 ≤ w ∧ w < 0xe000 then
          (rec rest4).map (fun p =>
            (Char.ofNat (0x10000 + (v - 0xd800) * 1024 + (w - 0xdc00)) :: p.1, p.2))
        else none)
    else none
  | _ => none

/-- A `\uXXXX` escape: four hex digits after `\u`. -/
def psbU (rec : Str → Option (Str × Str)) : Str → Option (Str × Str)
  | h1 :: h2 :: h3 :: h4 :: rest3 =>
    (hex4Val h1 h2 h3 h4).bind (fun v =>
      if v < 0xd800 ∨ 0xe000 ≤ v then
        (rec rest3).map (fun p => (Char.ofNat v :: p.1, p.2))
      else psbSur rec v rest3)
  | _ => none

/-- An escape sequence after the backslash. -/
def psbEsc (rec : Str → Option (Str × Str)) : Str → Option (Str × Str)
  | [] => none
  | e :: rest2 =>
    if e = 'u' then psbU rec rest2
    else
      (unescape e).bind (fun c2 =>
        (rec rest2).map (fun p => (c2 :: p.1, p.2)))

/-- One step of the string-body scan: `rec` parses the remainder after
the first decoded character. -/
def psbStep (rec : Str → Option (Str × Str)) : Str → Option (Str × Str)
  | [] => none
  | c :: rest =>
    if c = '"' then some ([], rest)
    else if c = '\\' then psbEsc rec rest
    else if c.toNat < 32 then none
    else (rec rest).map (fun p => (c :: p.1, p.2))

/-- Fuelled iteration of `psbStep`; every step consumes at least one
input character, so fuel beyond the input length is always sufficient. -/
def psbF : Nat → Str → Option (Str × Str)
  | 0, _ => none
  | n + 1, s => psbStep (psbF n) s

/-- String body after the opening quote; `\uXXXX` surrogate pairs combine
into one scalar (a lone surrogate is rejected, since the value space is
unicode scalars). -/
def parseStrBody (s : Str) : Option (Str × Str) := psbF (s.length + 1) s

def digitVal (c : Char) : Nat := c.toNat - 48

def foldDigits (l : Str) : Nat := l.foldl (fun acc c => acc * 10 + digitVal c) 0

/-- A fixed keyword tail (`null`/`true`/`false` after their head
character). -/
def pvWord (w : Str) (j : Json) (r : Str) : Option (Json × Str) :=
  if r.take w.length = w then some (j, r.drop w.length) else none

/-- Array body after `[`: either an immediate `]` or a non-empty item
list parsed by `recI`. -/
def pvArr (recI : Str → Option (List Json × Str)) (r : Str) : Option (Json × Str) :=
  match skipWs r with
  | ']' :: r2 => some (.arr [], r2)
  | r2 => (recI r2).map (fun p => (.arr p.1, p.2))

/-- Object body after the opening brace: either an immediate closing
brace or a non-empty field list parsed by `recF`. -/
def pvObj (recF : Str → Option (List (Str × Json) × Str)) (r : Str) :
    Option (Json × Str) :=
  match skipWs r with
  | '\x7d' :: r2 => some (.obj [], r2)
  | r2 => (recF r2).map (fun p => (.obj p.1, p.2))

/-- After one array item: a `,` continues with `recI`, a `]` closes. -/
def piCont (recI : Str → Option (List Json × Str)) (j : Json) (t : Str) :
    Option (List Json × Str) :=
  match skipWs t with
  | ',' :: r => (recI r).map (fun q => (j :: q.1, q.2))
  | ']' :: r => some ([j], r)
  | _ => none

/-- After one object field: a `,` continues with `recF`, a closing brace
closes. -/
def pfCont (recF : Str → Option (List (Str × Json) × Str)) (k : Str) (v : Json)
    (t : Str) : Option (List (Str × Json) × Str) :=
  match skipWs t with
  | ',' :: r => (recF r).map (fun q => ((k, v) :: q.1, q.2))
  | '\x7d' :: r => some ([(k, v)], r)
  | _ => none

/-- One object field after the opening quote of its key: key body, `:`,
value, then the field continuation. -/
def pfField (recV : Str → Option (Json × Str))
    (recF : Str → Option (List (Str × Json) × Str)) (r : Str) :
    Option (List (Str × Json) × Str) :=
  (parseStrBody r).bind (fun kp =>
    match skipWs kp.2 with
    | ':' :: r2 => (recV r2).bind (fun vp => pfCont recF kp.1 vp.1 vp.2)
    | _ => none)

mutual

def parseVal : Nat → Str → Option (Json × Str)
  | 0, _ => none
  | fuel + 1, s =>
    match skipWs s with
    | [] => none
    | c :: r =>
      if c = 'n' then pvWord (("ull").toList) .null r
      else if c = 't' then pvWord (("rue").toList) (.jbool true) r
      else if c = 'f' then pvWord (("alse").toList) (.jbool false) r
      else if c = '"' then (parseStrBody r).map (fun p => (.jstr p.1, p.2))
      else if c = '[' then pvArr (fun t => parseItems fuel t) r
      else if c = '\x7b' then pvObj (fun t => parseFields fuel t) r
      else if isDigitC c then
        some (.num (foldDigits ((c :: r).takeWhile isDigitC)),
              (c :: r).drop ((c :: r).takeWhile isDigitC).length)
      else none

def parseItems : Nat → Str → Option (List Json × Str)
  | 0, _ => none
  | fuel + 1, s =>
    (parseVal fuel s).bind (fun p => piCont (fun t => parseItems fuel t) p.1 p.2)

def parseFields : Nat → Str → Option (List (Str × Json) × Str)
  | 0, _ => none
  | fuel + 1, s =>
    match skipWs s with
    | '"' :: r => pfField (fun t => parseVal fuel t) (fun t => parseFields fuel t) r
    | _ => none

end

def jsonParse (s : Str) : Option Json :=
  match parseVal (s.length + 2) s with
  | some (j, rest) => if (skipWs rest).isEmpty then some j else none
  | none => none

/-!
## The share pipeline of `handleCopyLink` / the `App` decode effect
-/

def sectionJson (s : WikiSec) : Json :=
  .obj [(("heading").toList, .jstr s.heading),
        (("content").toList, .jstr s.content),
        (("keyPoints").toList, .arr (s.keyPoints.map Json.jstr)),
        (("citations").toList, .arr (s.citations.map Json.jstr))]

def wikiJson (d : Wiki) : Json :=
  .obj [(("title").toList, .jstr d.title),
        (("summary").toList, .jstr d.summary),
        (("readingTimeMinutes").toList, .num d.readingTimeMinutes),
        (("sections").toList, .arr (d.sections.map sectionJson)),
        (("relatedTopics").toList, .arr (d.relatedTopics.map Json.jstr))]

/-- `btoa(encodeURIComponent(JSON.stringify(data)))`. -/
def encodeShare (d : Wiki) : Option Str :=
  btoaStr (uriEncode (serJson (wikiJson d)))

/-- `JSON.parse(decodeURIComponent(atob(shareData)))`. -/
def decodeShare (s : Str) : Option Json := do
  let t ← atobStr s
  let u ← uriDecode t
  jsonParse u

/-- JS property access on the parsed value (`undefined` for a missing key
or a non-object). -/
def getField (j : Json) (k : Str) : Option Json :=
  match j with
  | .obj fs => (fs.find? (fun p => p.1 == k)).map (fun p => p.2)
  | _ => none

def jsTruthy (j : Json) : Bool :=
  match j with
  | .null => false
  | .jbool b => b
  | .num n => n != 0
  | .jstr s => !s.isEmpty
  | .arr _ => true
  | .obj _ => true

def truthyField (j : Json) (k : Str) : Bool :=
  match getField j k with
  | some v => jsTruthy v
  | none => false

inductive ShareOutcome where
  | viewing (d : Json)
  | errorState

/-- The `App` share-decode effect: decode, then the `data && data.title &&
data.sections` truthiness check; any failure falls back to the error
state. -/
def appDecodeShare (s : Str) : ShareOutcome :=
  match decodeShare s with
  | some j =>
    if jsTruthy j && truthyField j (("title").toList) &&
        truthyField j (("sections").toList) then
      .viewing j
    else .errorState
  | none => .errorState

/-!
## Glossary display order
-/

/-- Lexicographic order on code points. -/
def lexLe : Str → Str → Bool
  | [], _ => true
  | _ :: _, [] => false
  | a :: as, b :: bs =>
    if a.toNat < b.toNat then true
    else if b.toNat < a.toNat then false
    else lexLe as bs

/-- Model of `a.localeCompare(b) <= 0`: primary strength is
case-insensitive alphabetical; the locale tiebreak between
case-insensitively equal strings is abstracted by the code-point order. -/
def localeLe (a b : Str) : Bool :=
  if lowerStr a = lowerStr b then lexLe a b else lexLe (lowerStr a) (lowerStr b)

/-- `components/WikiRenderer.tsx` display list:
`Array.from(glossaryMap.entries()).sort((a, b) => a[0].localeCompare(b[0]))`. -/
def glossaryItemsTsx (d : Wiki) : GMap :=
  (glossaryMapTsx d).mergeSort (fun p q => localeLe p.1 q.1)

/-- `part_003` glossary section rendering:
`Array.from(glossaryMap.entries()).map(…)` — Map iteration order, no sort. -/
def glossaryItems3 (d : Wiki) : GMap := glossaryMap3 d

/-- Whether adjacent display entries are in case-insensitive alphabetical
order. -/
def chainLe : GMap → Bool
  | p :: q :: r => lexLe (lowerStr p.1) (lowerStr q.1) && chainLe (q :: r)
  | _ => true

/-!
## Concrete documents used as test inputs
-/

def mkSec (content : Str) : WikiSec := ⟨("H").toList, content, [], []⟩

def mkDoc (content : Str) : Wiki :=
  ⟨("T").toList, ("S").toList, 3, [mkSec content], []⟩

/-- The same term emphasised twice with different trailing text. -/
def docTwice : Wiki := mkDoc (("**Foo** is aaaaaaa. **Foo** is bbbbbbb.").toList)

/-- A digits-only term with a definition-shaped trailing clause. -/
def docDigits : Wiki := mkDoc (("**42** is the answer of everything").toList)

/-- Terms in reverse-alphabetical document order. -/
def docZebra : Wiki :=
  mkDoc (("**Zebra** is a striped animal. **Apple** is a fruit.").toList)

/-- A document with a citation whose text occurs nowhere else. -/
def docCitation : Wiki :=
  ⟨("T").toList, ("S").toList, 3,
   [⟨("H").toList, ("C").toList, [("K").toList], [("zqcite").toList]⟩], []⟩

/-- A decoded object whose `title`/`sections` are truthy but not of the
`Document` shape (`sections` is a non-empty string, not an array). -/
def malformedJson : Json :=
  Json.obj [(("title").toList, Json.jstr (("t").toList)),
            (("sections").toList, Json.jstr (("hello").toList))]

/-- A share query value that decodes to `malformedJson`. -/
def malformedShare : Str := b64Encode ((uriEncode (serJson malformedJson)).map Char.toNat)

/-- The token string a single character contributes to `uriEncode`'s
output, as seen by the decoder. -/
def charTokens (c : Char) : List (Char ⊕ Nat) :=
  if uriSafe c then [Sum.inl c] else (utf8EncodeChar c.toNat).map Sum.inr

/-- The input does not continue with a digit (so a serialized number is not
extended by what follows it). -/
def noLeadDigit : Str → Bool
  | [] => true
  | c :: _ => !isDigitC c

mutual

/-- Fuel sufficient for `parseVal` on the serialization of a value. -/
def fuelVal : Json → Nat
  | .arr l => fuelItems l + 1
  | .obj l => fuelFields l + 1
  | _ => 1

def fuelItems : List Json → Nat
  | [] => 1
  | j :: rest => Nat.max (fuelVal j) (fuelItems rest) + 1

def fuelFields : List (Str × Json) → Nat
  | [] => 1
  | (_, v) :: rest => Nat.max (fuelVal v) (fuelFields rest) + 1

end

/-!
# Theorems
-/

/-- C4: starting from history `[0,1,2]` with the cursor at 2, `goBack()`
followed by `selectSection(5)` yields history `[0,1,5]` with the cursor at
2 (and section 5 active): the forward entry is truncated before the new
index is appended. -/
theorem C4_history_truncation :
    (handleScrollToSection (handleHistoryBack ⟨[0, 1, 2], 2, 2, []⟩) 5).history = [0, 1, 5] ∧
    (handleScrollToSection (handleHistoryBack ⟨[0, 1, 2], 2, 2, []⟩) 5).historyIndex = 2 ∧
    (handleScrollToSection (handleHistoryBack ⟨[0, 1, 2], 2, 2, []⟩) 5).activeSection = 5 :=
  ⟨rfl, rfl, rfl⟩

/-- C3: a non-base64 share value and the base64 encoding of `"{}"` (valid
base64 and JSON, but with no `title`/`sections` fields) are both rejected:
the app falls back to the error state instead of the viewing state, and no
partially-populated document is produced (for `"e30="` the decode itself
yields the bare empty object, which validation then rejects). -/
theorem C3_corrupted_share_rejected :
    appDecodeShare (("not-valid-base64!!").toList) = ShareOutcome.errorState ∧
    appDecodeShare (("e30=").toList) = ShareOutcome.errorState ∧
    decodeShare (("not-valid-base64!!").toList) = none ∧
    decodeShare (("e30=").toList) = some (Json.obj []) :=
  ⟨rfl, rfl, rfl, rfl⟩

/-- C10: share-link validation is shallow — a query value whose decoded
JSON merely has truthy `title` and `sections` fields is accepted and
handed to the viewer even though `sections` is a string, not an array of
sections. -/
theorem C10_shallow_share_validation :
    appDecodeShare malformedShare = ShareOutcome.viewing malformedJson ∧
    getField malformedJson (("sections").toList) = some (Json.jstr (("hello").toList)) :=
  ⟨rfl, rfl⟩

/-- C1 counterexample: in the `components/WikiRenderer.tsx` extractor the
second emphasis of `Foo` overwrites the definition derived from the first
occurrence (`"aaaaaaa"`), so the retained definition is `"bbbbbbb"`.  The
`part_003` extractor on the same document keeps the first definition
(post-processed to `"Aaaaaaa"`). -/
theorem C1_counterexample :
    mapGet (glossaryMapTsx docTwice) (("Foo").toList) = some (("bbbbbbb").toList) ∧
    mapGet (glossaryMapTsx docTwice) (("Foo").toList) ≠ some (("aaaaaaa").toList) ∧
    mapGet (glossaryMap3 docTwice) (("Foo").toList) = some (("Aaaaaaa").toList) :=
  ⟨rfl, by decide, rfl⟩

/-- C6 counterexample: the `part_005` extractor lacks the numeric-term
guard, so the digits-only term `42` (length 2) appears as a glossary key
even though it parses entirely as a number. -/
theorem C6_counterexample :
    mapGet (glossaryMap5 docDigits) (("42").toList) =
      some (("the answer of everything...").toList) ∧
    jsIsNumeric (("42").toList) = true :=
  ⟨rfl, rfl⟩

/-- C7 counterexample: the `part_003` glossary section renders the map in
iteration (first-occurrence) order, so a document mentioning `Zebra`
before `Apple` displays them in that order, which is not alphabetical. -/
theorem C7_counterexample :
    (glossaryItems3 docZebra).map (fun p => p.1) = [("Zebra").toList, ("Apple").toList] ∧
    chainLe (glossaryItems3 docZebra) = false :=
  ⟨rfl, rfl⟩

/-- C8 counterexample: on input `"****"` the formatter does not treat the
doubled delimiter as literal text — it produces a term fragment whose term
is the empty string (with no definition), between two empty text parts. -/
theorem C8_counterexample :
    formatContent3 [] (("****").toList) =
      [Frag.text [], Frag.term [] none, Frag.text []] :=
  rfl

/-- C9 counterexample: the Markdown export of a document with citation
`zqcite` does not contain that citation anywhere — citations are omitted
from the export. -/
theorem C9_counterexample :
    ¬ (("zqcite").toList <:+: exportMD docCitation) ∧
    docCitation.sections.map (fun s => s.citations) = [[("zqcite").toList]] := by
  exact ⟨by decide, rfl⟩


theorem hasCI_eq_isSome (m : GMap) (lt : Str) : hasCI m lt = (findCI m lt).isSome := by
  induction m with
  | nil => rfl
  | cons p rest ih =>
    by_cases h : (lowerStr p.1 == lt) = true <;>
      simp [hasCI, findCI, List.any_cons, List.find?_cons, h] <;>
      simpa [hasCI, findCI] using ih

theorem gloss3_fold_guard (cands : List (Str × Str)) (m : GMap)
    (hm : ∀ p ∈ m, 2 ≤ p.1.length ∧ jsIsNumeric p.1 = false) :
    ∀ p ∈ cands.foldl gloss3Step m, 2 ≤ p.1.length ∧ jsIsNumeric p.1 = false := by
  induction cands generalizing m with
  | nil => simpa using hm
  | cons c cs ih =>
    intro p hp
    refine ih (gloss3Step m c) ?_ p hp
    intro q hq
    unfold gloss3Step at hq
    split at hq
    · exact hm q hq
    · split at hq
      · exact hm q hq
      · rcases List.mem_append.1 hq with h | h
        · exact hm q h
        · rcases List.mem_singleton.1 h with rfl
          rename_i hguard _
          simp only [Bool.or_eq_true, decide_eq_true_eq, not_or] at hguard
          dsimp only
          refine ⟨by omega, by simpa using hguard.2⟩

theorem gloss3_fold_findCI (cands : List (Str × Str)) (m : GMap) (lt : Str) :
    findCI (cands.foldl gloss3Step m) lt =
      (findCI m lt).or
        (((validCandsOf cands).find? (fun c => lowerStr c.1 == lt)).map
          (fun c => (c.1, defExtract3 c.2))) := by
  induction cands generalizing m with
  | nil => simp [validCandsOf]
  | cons c cs ih =>
    rw [List.foldl_cons, ih]
    unfold gloss3Step
    split
    · rename_i hguard
      have hv : validCandsOf (c :: cs) = validCandsOf cs := by
        simp only [validCandsOf, List.filterMap_cons]
        rw [if_pos hguard]
      rw [hv]
    · rename_i hguard
      have hv : validCandsOf (c :: cs) = (trimStr c.1, c.2) :: validCandsOf cs := by
        simp only [validCandsOf, List.filterMap_cons]
        rw [if_neg hguard]
      rw [hv]
      split
      · rename_i hci
        by_cases heq : (lowerStr (trimStr c.1) == lt) = true
        · have hlt : lowerStr (trimStr c.1) = lt := by simpa using heq
          rw [hlt, hasCI_eq_isSome] at hci
          obtain ⟨e, he⟩ := Option.isSome_iff_exists.1 hci
          rw [List.find?_cons_of_pos _ (by simpa using heq), he]
          rfl
        · rw [List.find?_cons_of_neg _ (by simpa using heq)]
      · rename_i hci
        by_cases heq : (lowerStr (trimStr c.1) == lt) = true
        · have hnone : findCI m lt = none := by
            have hlt : lowerStr (trimStr c.1) = lt := by simpa using heq
            rw [hlt, hasCI_eq_isSome] at hci
            exact Option.not_isSome_iff_eq_none.1 hci
          have hL : findCI (m ++ [(trimStr c.1, defExtract3 c.2)]) lt =
              some (trimStr c.1, defExtract3 c.2) := by
            rw [findCI, List.find?_append]
            rw [show List.find? (fun p => lowerStr p.1 == lt) m = none from hnone]
            rw [List.find?_cons_of_pos _ (by simpa using heq)]
            rfl
          rw [hL, hnone, List.find?_cons_of_pos _ (by simpa using heq)]
          rfl
        · have hL : findCI (m ++ [(trimStr c.1, defExtract3 c.2)]) lt = findCI m lt := by
            rw [findCI, List.find?_append]
            rw [List.find?_cons_of_neg _ (by simpa using heq)]
            rw [List.find?_nil, Option.or_none]
            rfl
          rw [hL, List.find?_cons_of_neg _ (by simpa using heq)]

theorem gloss3_fold_pairwise (cands : List (Str × Str)) (m : GMap)
    (hm : List.Pairwise (fun p q => lowerStr p.1 ≠ lowerStr q.1) m) :
    List.Pairwise (fun p q => lowerStr p.1 ≠ lowerStr q.1) (cands.foldl gloss3Step m) := by
  induction cands generalizing m with
  | nil => simpa using hm
  | cons c cs ih =>
    rw [List.foldl_cons]
    refine ih _ ?_
    unfold gloss3Step
    split
    · exact hm
    · split
      · exact hm
      · rename_i hguard hci
        rw [List.pairwise_append]
        refine ⟨hm, by simp, ?_⟩
        intro a ha b hb
        rcases List.mem_singleton.1 hb with rfl
        intro habs
        apply hci
        simp only [hasCI, List.any_eq_true]
        exact ⟨a, ha, by simp [habs]⟩

/-- C1 (amended to the `part_003` extractor): the glossary map has at most
one entry per case-insensitive term, and looking a term up finds exactly
the first guard-passing candidate in document order whose term matches
case-insensitively, with the definition derived from that first
occurrence's trailing text — later mentions never overwrite it.  (The
`components/WikiRenderer.tsx` variant violates this; see the
counterexample.) -/
theorem C1_first_definition_wins (d : Wiki) :
    List.Pairwise (fun p q => lowerStr p.1 ≠ lowerStr q.1) (glossaryMap3 d) ∧
    ∀ lt : Str,
      findCI (glossaryMap3 d) lt =
        ((validCands3 d).find? (fun c => lowerStr c.1 == lt)).map
          (fun c => (c.1, defExtract3 c.2)) := by
  constructor
  · exact gloss3_fold_pairwise _ _ (by simp)
  · intro lt
    have h := gloss3_fold_findCI (sectionsCands d.sections) [] lt
    simpa [glossaryMap3, validCands3, findCI] using h

/-- C6 (amended to the `part_003` extractor): no glossary key has trimmed
length below 2 or parses entirely as a number.  (The `part_005` variant
omits the numeric guard; see the counterexample.) -/
theorem C6_term_filtering (d : Wiki) (p : Str × Str) (hp : p ∈ glossaryMap3 d) :
    2 ≤ p.1.length ∧ jsIsNumeric p.1 = false :=
  gloss3_fold_guard _ [] (by simp) p hp

/-- Witness for `C6_term_filtering` at a concrete glossary entry. -/
theorem C6_term_filtering_witness :
    (("Zebra").toList, ("A striped animal").toList) ∈ glossaryMap3 docZebra ∧
    2 ≤ (("Zebra").toList).length ∧ jsIsNumeric (("Zebra").toList) = false :=
  ⟨by decide,
   C6_term_filtering docZebra ((("Zebra").toList, ("A striped animal").toList)) (by decide)⟩

/-- C8 (amended): an empty content string produces the empty fragment
sequence, but `"****"` is not rendered as literal text: the formatter
produces a term fragment whose term is the empty string and which
resolves to no glossary definition, between two empty text parts. -/
theorem C8_formatter_edge_cases (d : Wiki) :
    formatContent3 (glossaryMap3 d) [] = [] ∧
    formatContent3 (glossaryMap3 d) (("****").toList) =
      [Frag.text [], Frag.term [] none, Frag.text []] := by
  constructor
  · rfl
  · have hk : findCI (glossaryMap3 d) [] = none := by
      rw [findCI, List.find?_eq_none]
      intro x hx habs
      have h2 := (gloss3_fold_guard (sectionsCands d.sections) [] (by simp) x hx).1
      have hx1 : lowerStr x.1 = [] := by simpa using habs
      have hlen : x.1.length = 0 := by simpa [lowerStr] using congrArg List.length hx1
      omega
    have h4 : fragOf (glossaryMap3 d) (("****").toList) = Frag.term [] none := by
      unfold fragOf
      rw [if_pos (by decide)]
      rw [show lowerStr (slice2m2 (("****").toList)) = [] from rfl, hk]
      rfl
    show (if (("****").toList).isEmpty then ([] : List Frag)
          else (splitScan (("****").toList)).map (fragOf (glossaryMap3 d))) = _
    rw [if_neg (by decide)]
    rw [show splitScan (("****").toList) = [[], ("****").toList, []] from rfl]
    rw [List.map_cons, List.map_cons, List.map_cons, List.map_nil, h4]
    rfl

theorem charToNat_inj {a b : Char} (h : a.toNat = b.toNat) : a = b :=
  Char.ext (UInt32.toNat.inj h)

theorem lexLe_refl (a : Str) : lexLe a a = true := by
  induction a with
  | nil => rfl
  | cons c r ih => simp [lexLe, ih]

theorem lexLe_total (a b : Str) : lexLe a b = true ∨ lexLe b a = true := by
  induction a generalizing b with
  | nil => left; rfl
  | cons c r ih =>
    cases b with
    | nil => right; rfl
    | cons d s =>
      rcases Nat.lt_trichotomy c.toNat d.toNat with h | h | h
      · left; simp [lexLe, h]
      · rcases ih s with hr | hr
        · left; simp [lexLe, h, hr]
        · right; simp [lexLe, h.symm, hr]
      · right; simp [lexLe, h]

theorem lexLe_trans : ∀ {a b c : Str}, lexLe a b = true → lexLe b c = true →
    lexLe a c = true := by
  intro a
  induction a with
  | nil => intro b c h1 h2; rfl
  | cons x r ih =>
    intro b c h1 h2
    cases b with
    | nil => simp [lexLe] at h1
    | cons y s =>
      cases c with
      | nil => simp [lexLe] at h2
      | cons z t =>
        simp only [lexLe] at h1 h2 ⊢
        rcases Nat.lt_trichotomy x.toNat y.toNat with hxy | hxy | hxy
        · rcases Nat.lt_trichotomy y.toNat z.toNat with hyz | hyz | hyz
          · simp [show x.toNat < z.toNat from by omega]
          · simp [show x.toNat < z.toNat from by omega]
          · rw [if_neg (by omega), if_pos hyz] at h2
            exact absurd h2 (by simp)
        · rw [if_neg (by omega), if_neg (by omega)] at h1
          rcases Nat.lt_trichotomy y.toNat z.toNat with hyz | hyz | hyz
          · simp [show x.toNat < z.toNat from by omega]
          · rw [if_neg (by omega), if_neg (by omega)] at h2
            rw [if_neg (by omega), if_neg (by omega)]
            exact ih h1 h2
          · rw [if_neg (by omega), if_pos hyz] at h2
            exact absurd h2 (by simp)
        · rw [if_neg (by omega), if_pos hxy] at h1
          exact absurd h1 (by simp)

theorem lexLe_antisym : ∀ {a b : Str}, lexLe a b = true → lexLe b a = true →
    a = b := by
  intro a
  induction a with
  | nil =>
    intro b h1 h2
    cases b with
    | nil => rfl
    | cons d s => simp [lexLe] at h2
  | cons c r ih =>
    intro b h1 h2
    cases b with
    | nil => simp [lexLe] at h1
    | cons d s =>
      simp only [lexLe] at h1 h2
      rcases Nat.lt_trichotomy c.toNat d.toNat with h | h | h
      · rw [if_neg (by omega), if_pos h] at h2
        exact absurd h2 (by simp)
      · have hcd : c = d := charToNat_inj h
        subst hcd
        rw [if_neg (by omega), if_neg (by omega)] at h1 h2
        rw [ih h1 h2]
      · rw [if_neg (by omega), if_pos h] at h1
        exact absurd h1 (by simp)

theorem localeLe_trans {a b c : Str} (h1 : localeLe a b = true)
    (h2 : localeLe b c = true) : localeLe a c = true := by
  unfold localeLe at h1 h2 ⊢
  by_cases e1 : lowerStr a = lowerStr b <;> by_cases e2 : lowerStr b = lowerStr c
  · rw [if_pos e1] at h1
    rw [if_pos e2] at h2
    rw [if_pos (e1.trans e2)]
    exact lexLe_trans h1 h2
  · rw [if_pos e1] at h1
    rw [if_neg e2] at h2
    have e3 : lowerStr a ≠ lowerStr c := by rw [e1]; exact e2
    rw [if_neg e3, e1]
    exact h2
  · rw [if_neg e1] at h1
    rw [if_pos e2] at h2
    have e3 : lowerStr a ≠ lowerStr c := by rw [← e2]; exact e1
    rw [if_neg e3, ← e2]
    exact h1
  · rw [if_neg e1] at h1
    rw [if_neg e2] at h2
    by_cases e3 : lowerStr a = lowerStr c
    · exfalso
      rw [← e3] at h2
      exact e1 (lexLe_antisym h1 h2)
    · rw [if_neg e3]
      exact lexLe_trans h1 h2

theorem localeLe_total (a b : Str) : (localeLe a b || localeLe b a) = true := by
  unfold localeLe
  by_cases e : lowerStr a = lowerStr b
  · rw [if_pos e, if_pos e.symm]
    rcases lexLe_total a b with h | h <;> simp [h]
  · rw [if_neg e, if_neg (Ne.symm e)]
    rcases lexLe_total (lowerStr a) (lowerStr b) with h | h <;> simp [h]

theorem localeLe_primary {a b : Str} (h : localeLe a b = true) :
    lexLe (lowerStr a) (lowerStr b) = true := by
  unfold localeLe at h
  by_cases e : lowerStr a = lowerStr b
  · rw [e]
    exact lexLe_refl _
  · rwa [if_neg e] at h

/-- C7 (amended to the `components/WikiRenderer.tsx` variant): the
displayed glossary entries are a permutation of the extracted map sorted
so that adjacent terms are in case-insensitive alphabetical order,
independent of document order.  (The `part_003` variant renders in
first-occurrence order instead; see the counterexample.) -/
theorem C7_glossary_display_order (d : Wiki) :
    (glossaryItemsTsx d).Perm (glossaryMapTsx d) ∧
    List.Pairwise (fun p q => lexLe (lowerStr p.1) (lowerStr q.1) = true)
      (glossaryItemsTsx d) := by
  constructor
  · exact List.mergeSort_perm _ _
  · have hs := @List.sorted_mergeSort (Str × Str)
      (fun p q => localeLe p.1 q.1)
      (fun a b c h1 h2 => localeLe_trans h1 h2)
      (fun a b => localeLe_total a.1 b.1)
      (glossaryMapTsx d)
    exact hs.imp (fun h => localeLe_primary h)

theorem infix_extend_right {l h t : Str} (hl : l <:+: h) : l <:+: h ++ t := by
  rcases hl with ⟨u, v, rfl⟩
  exact ⟨u, v ++ t, by simp⟩

theorem infix_extend_left {l h t : Str} (hl : l <:+: t) : l <:+: h ++ t := by
  rcases hl with ⟨u, v, rfl⟩
  exact ⟨h ++ u, v, by simp⟩

theorem infix_trans {a b c : Str} (h1 : a <:+: b) (h2 : b <:+: c) : a <:+: c := by
  rcases h1 with ⟨u, v, rfl⟩
  rcases h2 with ⟨w, x, rfl⟩
  exact ⟨w ++ u, v ++ x, by simp⟩

theorem infix_head (l t : Str) : l <:+: l ++ t := ⟨[], t, by simp⟩

theorem infix_last (h l : Str) : l <:+: h ++ l := ⟨h, [], by simp⟩

theorem intercalate_cons₂' (sep a : Str) (l : List Str) (hne : l ≠ []) :
    List.intercalate sep (a :: l) = a ++ sep ++ List.intercalate sep l := by
  cases l with
  | nil => exact absurd rfl hne
  | cons b r =>
    simp [List.intercalate, List.intersperse, List.append_assoc]

theorem infix_of_mem_intercalate {x : Str} (sep : Str) :
    ∀ {xs : List Str}, x ∈ xs → x <:+: List.intercalate sep xs := by
  intro xs
  induction xs with
  | nil => intro h; cases h
  | cons a l ih =>
    intro h
    cases l with
    | nil =>
      rcases List.mem_singleton.1 h with rfl
      have he : List.intercalate sep [x] = x := by simp [List.intercalate]
      rw [he]
    | cons b r =>
      rw [intercalate_cons₂' sep a (b :: r) (by simp)]
      rcases List.mem_cons.1 h with rfl | hm
      · exact infix_extend_right (infix_head _ _)
      · exact infix_extend_left (ih hm)

/-- C9 (amended): the Markdown export is a deterministic flattening that
contains the title, the summary, and every section's heading, content and
key points (as `- `-bulleted lines); citations are not part of the export
(see the counterexample). -/
theorem C9_markdown_flattening (d : Wiki) :
    d.title <:+: exportMD d ∧ d.summary <:+: exportMD d ∧
    ∀ s ∈ d.sections,
      s.heading <:+: exportMD d ∧ s.content <:+: exportMD d ∧
      ∀ p ∈ s.keyPoints, ('-' :: ' ' :: p) <:+: exportMD d := by
  have hsec : ∀ s ∈ d.sections, mdSection s <:+: exportMD d := by
    intro s hs
    unfold exportMD
    exact infix_extend_left (List.infix_of_mem_flatten (List.mem_map_of_mem _ hs))
  refine ⟨?_, ?_, ?_⟩
  · unfold exportMD
    refine infix_extend_right (infix_extend_right (infix_extend_right (infix_extend_right ?_)))
    exact ⟨['#', ' '], [], by simp⟩
  · unfold exportMD
    exact infix_extend_right (infix_extend_right (infix_last _ _))
  · intro s hs
    refine ⟨?_, ?_, ?_⟩
    · refine infix_trans ?_ (hsec s hs)
      unfold mdSection
      exact infix_extend_right (infix_extend_right (infix_extend_right (infix_extend_right
        (infix_extend_right (infix_extend_right (infix_last _ _))))))
    · refine infix_trans ?_ (hsec s hs)
      unfold mdSection
      exact infix_extend_right (infix_extend_right (infix_extend_right (infix_extend_right
        (infix_last _ _))))
    · intro p hp
      refine infix_trans ?_ (hsec s hs)
      unfold mdSection
      refine infix_extend_right (infix_extend_left ?_)
      exact infix_of_mem_intercalate _ (List.mem_map_of_mem _ hp)

/-- Witness for `C9_markdown_flattening` at a concrete document. -/
theorem C9_markdown_flattening_witness :
    ("H").toList <:+: exportMD docCitation ∧
    ('-' :: ' ' :: ("K").toList) <:+: exportMD docCitation := by
  have h := C9_markdown_flattening docCitation
  have hs := h.2.2 ⟨("H").toList, ("C").toList, [("K").toList], [("zqcite").toList]⟩
    (List.mem_singleton.mpr rfl)
  exact ⟨hs.1, hs.2.2 (("K").toList) (List.mem_singleton.mpr rfl)⟩

theorem inv_stopped_none (n : Nat) (x : Int) :
    speechInv n ⟨⟨x, .stopped⟩, none⟩ := by
  refine ⟨by simp, by simp, by simp, by simp, by simp⟩

theorem inv_stopped_pending (n : Nat) (x : Int) (i : Nat) (h : i < n) :
    speechInv n ⟨⟨x, .stopped⟩, some (i, .pending)⟩ := by
  refine ⟨by simp, by simp, ?_, by simp, by simp⟩
  intro k ph hk
  simp only [Option.some.injEq, Prod.mk.injEq] at hk
  omega

theorem inv_playing (n : Nat) (i : Nat) (h : i < n) :
    speechInv n ⟨⟨(i : Int), .playing⟩, some (i, .speaking)⟩ := by
  refine ⟨?_, ?_, ?_, ?_, ?_⟩
  · intro k hk
    simp only [Option.some.injEq, Prod.mk.injEq] at hk
    simp [hk.1]
  · intro k hk
    simp only [Option.some.injEq, Prod.mk.injEq] at hk
    cases hk.2
  · intro k ph hk
    simp only [Option.some.injEq, Prod.mk.injEq] at hk
    omega
  · intro _
    exact ⟨i, h, rfl, rfl⟩
  · intro habs
    cases habs

theorem inv_paused (n : Nat) (i : Nat) (h : i < n) :
    speechInv n ⟨⟨(i : Int), .paused⟩, some (i, .pausedE)⟩ := by
  refine ⟨?_, ?_, ?_, ?_, ?_⟩
  · intro k hk
    simp only [Option.some.injEq, Prod.mk.injEq] at hk
    cases hk.2
  · intro k hk
    simp only [Option.some.injEq, Prod.mk.injEq] at hk
    simp [hk.1]
  · intro k ph hk
    simp only [Option.some.injEq, Prod.mk.injEq] at hk
    omega
  · intro habs
    cases habs
  · intro _
    exact ⟨i, h, rfl, rfl⟩

theorem speechInv_step (n : Nat) (s : SpeechSys) (e : SpeechEv)
    (h : speechInv n s) (hok : evOk n e) : speechInv n (speechStep s e).1 := by
  obtain ⟨⟨idx, status⟩, engine⟩ := s
  obtain ⟨h1, h2, h3, h4, h5⟩ := h
  cases e with
  | req i =>
    have hin : i < n := hok
    simp only [speechStep, handleTTSstep]
    by_cases hidx : (idx == (i : Int)) = true
    · rw [if_pos hidx]
      have hidx' : idx = (i : Int) := by simpa using hidx
      cases status with
      | playing =>
        obtain ⟨k, hk, hkidx, heng⟩ := h4 rfl
        have hki : k = i := by
          have : (k : Int) = (i : Int) := by rw [← hkidx, hidx']
          exact_mod_cast this
        subst hki
        simp only at heng
        rw [heng]
        simp only [pauseEngine]
        exact inv_paused n k hk
      | paused =>
        obtain ⟨k, hk, hkidx, heng⟩ := h5 rfl
        have hki : k = i := by
          have : (k : Int) = (i : Int) := by rw [← hkidx, hidx']
          exact_mod_cast this
        subst hki
        simp only at heng
        rw [heng]
        simp only [resumeEngine]
        exact inv_playing n k hk
      | stopped => exact ⟨h1, h2, h3, h4, h5⟩
    · rw [if_neg hidx]
      cases engine with
      | none =>
        simp only [cancelEngine]
        cases status with
        | playing =>
          obtain ⟨k, _, _, heng⟩ := h4 rfl
          cases heng
        | paused =>
          obtain ⟨k, _, _, heng⟩ := h5 rfl
          cases heng
        | stopped => exact inv_stopped_pending n idx i hin
      | some u =>
        simp only [cancelEngine]
        exact inv_stopped_pending n (-1) i hin
  | engStart =>
    cases engine with
    | none => exact ⟨h1, h2, h3, h4, h5⟩
    | some u =>
      obtain ⟨k, ph⟩ := u
      cases ph with
      | pending =>
        simp only [speechStep]
        exact inv_playing n k (h3 k .pending rfl)
      | speaking => exact ⟨h1, h2, h3, h4, h5⟩
      | pausedE => exact ⟨h1, h2, h3, h4, h5⟩
  | engEnd =>
    cases engine with
    | none => exact ⟨h1, h2, h3, h4, h5⟩
    | some u =>
      obtain ⟨k, ph⟩ := u
      cases ph with
      | pending => exact ⟨h1, h2, h3, h4, h5⟩
      | speaking =>
        simp only [speechStep]
        exact inv_stopped_none n (-1)
      | pausedE => exact ⟨h1, h2, h3, h4, h5⟩
  | engPause =>
    cases engine with
    | none => exact ⟨h1, h2, h3, h4, h5⟩
    | some u =>
      obtain ⟨k, ph⟩ := u
      cases ph with
      | pending => exact ⟨h1, h2, h3, h4, h5⟩
      | speaking =>
        simp only [speechStep]
        have htts := h1 k rfl
        have : idx = (k : Int) := by
          have := congrArg TtsState.idx htts
          simpa using this
        rw [this]
        exact inv_paused n k (h3 k .speaking rfl)
      | pausedE => exact ⟨h1, h2, h3, h4, h5⟩
  | engResume =>
    cases engine with
    | none => exact ⟨h1, h2, h3, h4, h5⟩
    | some u =>
      obtain ⟨k, ph⟩ := u
      cases ph with
      | pending => exact ⟨h1, h2, h3, h4, h5⟩
      | speaking => exact ⟨h1, h2, h3, h4, h5⟩
      | pausedE =>
        simp only [speechStep]
        have htts := h2 k rfl
        have : idx = (k : Int) := by
          have := congrArg TtsState.idx htts
          simpa using this
        rw [this]
        exact inv_playing n k (h3 k .pausedE rfl)
  | engError =>
    cases engine with
    | none => exact ⟨h1, h2, h3, h4, h5⟩
    | some u =>
      simp only [speechStep]
      exact inv_stopped_none n (-1)
  | stopBtn =>
    simp only [speechStep]
    exact inv_stopped_none n (-1)
  | docChange =>
    simp only [speechStep]
    exact inv_stopped_none n (-1)

theorem speechInv_reachable {n : Nat} {s : SpeechSys}
    (h : SpeechReachable n s) : speechInv n s := by
  induction h with
  | init => exact ⟨by simp [initSpeech], by simp [initSpeech], by simp [initSpeech],
      by simp [initSpeech], by simp [initSpeech]⟩
  | step e hr hok ih => exact speechInv_step _ _ e ih hok

/-- C5: in every reachable speech state at most one section is in a
non-stopped status, and the status is `playing`/`paused` only when the
active index is a real section; requesting section `j` while section `i`
(`i ≠ j`) is playing emits the cancel of `i`'s utterance before the speak
of `j`'s, and once the new utterance starts the state is `playing(j)`. -/
theorem C5_speech_exclusivity (n : Nat) (s : SpeechSys) (h : SpeechReachable n s) :
    (∀ i j : Int, nonStopped s i → nonStopped s j → i = j) ∧
    (s.tts.status ≠ TtsStatus.stopped → 0 ≤ s.tts.idx ∧ s.tts.idx < (n : Int)) ∧
    (∀ i j : Nat, s.tts = ⟨(i : Int), TtsStatus.playing⟩ → i ≠ j → j < n →
      (speechStep s (SpeechEv.req j)).2 = [Cmd.cancel, Cmd.speak j] ∧
      (speechStep (speechStep s (SpeechEv.req j)).1 SpeechEv.engStart).1.tts =
        ⟨(j : Int), TtsStatus.playing⟩) := by
  obtain ⟨h1, h2, h3, h4, h5⟩ := speechInv_reachable h
  refine ⟨?_, ?_, ?_⟩
  · intro i j hi hj
    have e1 := hi.2
    have e2 := hj.2
    omega
  · intro hns
    cases hst : s.tts.status with
    | playing =>
      obtain ⟨k, hk, hidx, _⟩ := h4 hst
      rw [hidx]
      constructor <;> omega
    | paused =>
      obtain ⟨k, hk, hidx, _⟩ := h5 hst
      rw [hidx]
      constructor <;> omega
    | stopped => exact absurd hst hns
  · intro i j htts hij hjn
    have hpl : s.tts.status = TtsStatus.playing := by rw [htts]
    obtain ⟨k, hk, hidx, heng⟩ := h4 hpl
    have hidx2 : s.tts.idx = (i : Int) := by rw [htts]
    have hcond : ¬ ((s.tts.idx == (j : Int)) = true) := by
      rw [hidx2]
      simp only [beq_iff_eq]
      exact fun hh => hij (Nat.cast_inj.mp hh)
    constructor
    · show (handleTTSstep s j).2 = _
      unfold handleTTSstep
      rw [if_neg hcond]
      unfold cancelEngine
      rw [heng]
      rfl
    · show (speechStep (handleTTSstep s j).1 SpeechEv.engStart).1.tts = _
      unfold handleTTSstep
      rw [if_neg hcond]
      unfold cancelEngine
      rw [heng]
      rfl

/-- Witness for `C5_speech_exclusivity`: with two sections, from the
reachable state playing section 0, requesting section 1 emits
`[cancel, speak 1]` and ends in `playing(1)`. -/
theorem C5_speech_exclusivity_witness :
    (speechStep ((speechStep (speechStep initSpeech (SpeechEv.req 0)).1
        SpeechEv.engStart).1) (SpeechEv.req 1)).2 = [Cmd.cancel, Cmd.speak 1] ∧
    (speechStep (speechStep ((speechStep (speechStep initSpeech (SpeechEv.req 0)).1
        SpeechEv.engStart).1) (SpeechEv.req 1)).1 SpeechEv.engStart).1.tts =
      ⟨(1 : Int), TtsStatus.playing⟩ := by
  have hr : SpeechReachable 2
      ((speechStep (speechStep initSpeech (SpeechEv.req 0)).1 SpeechEv.engStart).1) :=
    SpeechReachable.step SpeechEv.engStart
      (SpeechReachable.step (SpeechEv.req 0) SpeechReachable.init
        (show (0 : Nat) < 2 by omega)) trivial
  have h := C5_speech_exclusivity 2 _ hr
  exact h.2.2 0 1 rfl (by decide) (by decide)

theorem b64Index_b64Char : ∀ n, n < 64 → b64Index (b64Char n) = some n := by decide

theorem b64Char_ne_pad : ∀ n, n < 64 → ¬ (b64Char n = '=') := by decide

theorem b64Char_not_ws : ∀ n, n < 64 → asciiWsB (b64Char n) = false := by decide

theorem b64Encode_not_ws {bs : List Nat} (hb : ∀ b ∈ bs, b < 256) :
    ∀ c ∈ b64Encode bs, asciiWsB c = false := by
  induction bs using b64Encode.induct with
  | case1 => intro c hc; cases hc
  | case2 a =>
    intro c hc
    have ha : a < 256 := hb a (by simp)
    simp only [b64Encode, List.mem_cons, List.not_mem_nil, or_false] at hc
    rcases hc with rfl | rfl | rfl | rfl
    · exact b64Char_not_ws _ (by omega)
    · exact b64Char_not_ws _ (by omega)
    · rfl
    · rfl
  | case3 a b =>
    intro c hc
    have ha : a < 256 := hb a (by simp)
    have hbb : b < 256 := hb b (by simp)
    simp only [b64Encode, List.mem_cons, List.not_mem_nil, or_false] at hc
    rcases hc with rfl | rfl | rfl | rfl
    · exact b64Char_not_ws _ (by omega)
    · exact b64Char_not_ws _ (by omega)
    · exact b64Char_not_ws _ (by omega)
    · rfl
  | case4 a b c rest ih =>
    intro x hx
    have ha : a < 256 := hb a (by simp)
    have hbb : b < 256 := hb b (by simp)
    have hcc : c < 256 := hb c (by simp)
    simp only [b64Encode, List.mem_cons] at hx
    rcases hx with rfl | rfl | rfl | rfl | hx
    · exact b64Char_not_ws _ (by omega)
    · exact b64Char_not_ws _ (by omega)
    · exact b64Char_not_ws _ (by omega)
    · exact b64Char_not_ws _ (by omega)
    · exact ih (fun y hy => hb y (by simp [hy])) x hx

theorem b64Encode_len4 (bs : List Nat) : (b64Encode bs).length % 4 = 0 := by
  induction bs using b64Encode.induct with
  | case1 => rfl
  | case2 a => simp [b64Encode]
  | case3 a b => simp [b64Encode]
  | case4 a b c rest ih =>
    simp only [b64Encode, List.length_cons]
    omega

theorem b64Encode_len_ge {bs : List Nat} (h : bs ≠ []) : 4 ≤ (b64Encode bs).length := by
  induction bs using b64Encode.induct with
  | case1 => exact absurd rfl h
  | case2 a => simp [b64Encode]
  | case3 a b => simp [b64Encode]
  | case4 a b c rest ih => simp [b64Encode]

theorem dropPad2_append (e1 e2 : Char) (er g : Str) :
    dropPad2 (e1 :: e2 :: er ++ g) = dropPad2 (e1 :: e2 :: er) ++ g := by
  by_cases h1 : e1 = '='
  · subst h1
    by_cases h2 : e2 = '='
    · subst h2
      simp [dropPad2]
    · simp [dropPad2, h2]
  · simp [dropPad2, h1]

theorem stripPad_group (g4 E : Str) (hg : g4.length = 4) (hE4 : E.length % 4 = 0)
    (hE2 : 2 ≤ E.length) : stripPad (g4 ++ E) = g4 ++ stripPad E := by
  obtain ⟨e1, t1, ht1⟩ : ∃ x t, E.reverse = x :: t := by
    cases hr : E.reverse with
    | nil =>
      exfalso
      have h0 : E.length = 0 := by simpa using congrArg List.length hr
      omega
    | cons x t => exact ⟨x, t, rfl⟩
  obtain ⟨e2, t2, ht2⟩ : ∃ y t, t1 = y :: t := by
    cases t1 with
    | nil =>
      exfalso
      have h1 : E.length = 1 := by simpa using congrArg List.length ht1
      omega
    | cons y t => exact ⟨y, t, rfl⟩
  subst ht2
  have hlen1 : ((g4 ++ E).length % 4 == 0) = true := by
    refine beq_iff_eq.mpr ?_
    rw [List.length_append, hg]
    omega
  have hlen2 : (E.length % 4 == 0) = true := beq_iff_eq.mpr hE4
  unfold stripPad
  rw [if_pos hlen1, if_pos hlen2]
  rw [List.reverse_append, ht1]
  rw [dropPad2_append e1 e2 t2 g4.reverse]
  rw [List.reverse_append, List.reverse_reverse]

theorem decode_strip_encode : ∀ bs : List Nat, (∀ b ∈ bs, b < 256) →
    decode4 (stripPad (b64Encode bs)) = some bs := by
  intro bs
  induction bs using b64Encode.induct with
  | case1 => intro _; rfl
  | case2 a =>
    intro h
    have ha : a < 256 := h a (by simp)
    show decode4 (stripPad [b64Char (a / 4), b64Char (a % 4 * 16), '=', '=']) = some [a]
    rw [show stripPad [b64Char (a / 4), b64Char (a % 4 * 16), '=', '='] =
        [b64Char (a / 4), b64Char (a % 4 * 16)] from by simp [stripPad, dropPad2]]
    show (do
      let i1 ← b64Index (b64Char (a / 4))
      let i2 ← b64Index (b64Char (a % 4 * 16))
      pure [i1 * 4 + i2 / 16] : Option (List Nat)) = some [a]
    rw [b64Index_b64Char (a / 4) (by omega), b64Index_b64Char (a % 4 * 16) (by omega)]
    show some [a / 4 * 4 + a % 4 * 16 / 16] = some [a]
    have : a / 4 * 4 + a % 4 * 16 / 16 = a := by omega
    rw [this]
  | case3 a b =>
    intro h
    have ha : a < 256 := h a (by simp)
    have hbb : b < 256 := h b (by simp)
    show decode4 (stripPad [b64Char (a / 4), b64Char (a % 4 * 16 + b / 16),
        b64Char (b % 16 * 4), '=']) = some [a, b]
    rw [show stripPad [b64Char (a / 4), b64Char (a % 4 * 16 + b / 16),
        b64Char (b % 16 * 4), '='] =
        [b64Char (a / 4), b64Char (a % 4 * 16 + b / 16), b64Char (b % 16 * 4)] from ?_]
    · show (do
        let i1 ← b64Index (b64Char (a / 4))
        let i2 ← b64Index (b64Char (a % 4 * 16 + b / 16))
        let i3 ← b64Index (b64Char (b % 16 * 4))
        pure [i1 * 4 + i2 / 16, i2 % 16 * 16 + i3 / 4] : Option (List Nat)) = some [a, b]
      rw [b64Index_b64Char (a / 4) (by omega),
          b64Index_b64Char (a % 4 * 16 + b / 16) (by omega),
          b64Index_b64Char (b % 16 * 4) (by omega)]
      show some [a / 4 * 4 + (a % 4 * 16 + b / 16) / 16,
        (a % 4 * 16 + b / 16) % 16 * 16 + b % 16 * 4 / 4] = some [a, b]
      have e1 : a / 4 * 4 + (a % 4 * 16 + b / 16) / 16 = a := by omega
      have e2 : (a % 4 * 16 + b / 16) % 16 * 16 + b % 16 * 4 / 4 = b := by omega
      rw [e1, e2]
    · have hc3 : ¬ (b64Char (b % 16 * 4) = '=') := b64Char_ne_pad _ (by omega)
      simp [stripPad, dropPad2, hc3]
  | case4 a b c rest ih =>
    intro h
    have ha : a < 256 := h a (by simp)
    have hbb : b < 256 := h b (by simp)
    have hcc : c < 256 := h c (by simp)
    by_cases hr : rest = []
    · subst hr
      show decode4 (stripPad [b64Char (a / 4), b64Char (a % 4 * 16 + b / 16),
          b64Char (b % 16 * 4 + c / 64), b64Char (c % 64)]) = some [a, b, c]
      rw [show stripPad [b64Char (a / 4), b64Char (a % 4 * 16 + b / 16),
          b64Char (b % 16 * 4 + c / 64), b64Char (c % 64)] =
          [b64Char (a / 4), b64Char (a % 4 * 16 + b / 16),
           b64Char (b % 16 * 4 + c / 64), b64Char (c % 64)] from ?_]
      · show (do
          let i1 ← b64Index (b64Char (a / 4))
          let i2 ← b64Index (b64Char (a % 4 * 16 + b / 16))
          let i3 ← b64Index (b64Char (b % 16 * 4 + c / 64))
          let i4 ← b64Index (b64Char (c % 64))
          let tl ← decode4 []
          pure ((i1 * 4 + i2 / 16) :: (i2 % 16 * 16 + i3 / 4) ::
            (i3 % 4 * 64 + i4) :: tl) : Option (List Nat)) = some [a, b, c]
        rw [b64Index_b64Char (a / 4) (by omega),
            b64Index_b64Char (a % 4 * 16 + b / 16) (by omega),
            b64Index_b64Char (b % 16 * 4 + c / 64) (by omega),
            b64Index_b64Char (c % 64) (by omega)]
        show some [a / 4 * 4 + (a % 4 * 16 + b / 16) / 16,
          (a % 4 * 16 + b / 16) % 16 * 16 + (b % 16 * 4 + c / 64) / 4,
          (b % 16 * 4 + c / 64) % 4 * 64 + c % 64] = some [a, b, c]
        have e1 : a / 4 * 4 + (a % 4 * 16 + b / 16) / 16 = a := by omega
        have e2 : (a % 4 * 16 + b / 16) % 16 * 16 + (b % 16 * 4 + c / 64) / 4 = b := by omega
        have e3 : (b % 16 * 4 + c / 64) % 4 * 64 + c % 64 = c := by omega
        rw [e1, e2, e3]
      · have hc4 : ¬ (b64Char (c % 64) = '=') := b64Char_ne_pad _ (by omega)
        simp [stripPad, dropPad2, hc4]
    · have hrest : ∀ y ∈ rest, y < 256 := fun y hy => h y (by simp [hy])
      have hElen := b64Encode_len_ge (show rest ≠ [] from hr)
      show decode4 (stripPad ([b64Char (a / 4), b64Char (a % 4 * 16 + b / 16),
          b64Char (b % 16 * 4 + c / 64), b64Char (c % 64)] ++ b64Encode rest)) =
        some (a :: b :: c :: rest)
      rw [stripPad_group _ _ (by rfl) (b64Encode_len4 rest) (by omega)]
      show (do
        let i1 ← b64Index (b64Char (a / 4))
        let i2 ← b64Index (b64Char (a % 4 * 16 + b / 16))
        let i3 ← b64Index (b64Char (b % 16 * 4 + c / 64))
        let i4 ← b64Index (b64Char (c % 64))
        let tl ← decode4 (stripPad (b64Encode rest))
        pure ((i1 * 4 + i2 / 16) :: (i2 % 16 * 16 + i3 / 4) ::
          (i3 % 4 * 64 + i4) :: tl) : Option (List Nat)) = some (a :: b :: c :: rest)
      rw [b64Index_b64Char (a / 4) (by omega),
          b64Index_b64Char (a % 4 * 16 + b / 16) (by omega),
          b64Index_b64Char (b % 16 * 4 + c / 64) (by omega),
          b64Index_b64Char (c % 64) (by omega),
          ih hrest]
      show some ((a / 4 * 4 + (a % 4 * 16 + b / 16) / 16) ::
        ((a % 4 * 16 + b / 16) % 16 * 16 + (b % 16 * 4 + c / 64) / 4) ::
        ((b % 16 * 4 + c / 64) % 4 * 64 + c % 64) :: rest) = some (a :: b :: c :: rest)
      have e1 : a / 4 * 4 + (a % 4 * 16 + b / 16) / 16 = a := by omega
      have e2 : (a % 4 * 16 + b / 16) % 16 * 16 + (b % 16 * 4 + c / 64) / 4 = b := by omega
      have e3 : (b % 16 * 4 + c / 64) % 4 * 64 + c % 64 = c := by omega
      rw [e1, e2, e3]

theorem atobBytes_b64Encode {bs : List Nat} (h : ∀ b ∈ bs, b < 256) :
    atobBytes (b64Encode bs) = some bs := by
  unfold atobBytes
  rw [List.filter_eq_self.mpr (fun c hc => by
    simp [b64Encode_not_ws h c hc])]
  exact decode_strip_encode bs h

theorem atobStr_b64Encode {u : Str} (hu : ∀ c ∈ u, c.toNat < 256) :
    atobStr (b64Encode (u.map Char.toNat)) = some u := by
  unfold atobStr
  rw [atobBytes_b64Encode (by
    intro b hb
    obtain ⟨c, hc, rfl⟩ := List.mem_map.1 hb
    exact hu c hc)]
  show some (List.map Char.ofNat (List.map Char.toNat u)) = some u
  rw [List.map_map]
  have h2 : ∀ c ∈ u, (Char.ofNat ∘ Char.toNat) c = id c := fun c _ => Char.ofNat_toNat c
  rw [List.map_congr_left h2, List.map_id]

theorem btoaStr_of_ascii {u : Str} (hu : ∀ c ∈ u, c.toNat < 256) :
    btoaStr u = some (b64Encode (u.map Char.toNat)) := by
  unfold btoaStr
  rw [if_pos (by
    rw [List.all_eq_true]
    intro c hc
    simpa using hu c hc)]

theorem char_valid_cases (c : Char) :
    c.toNat < 0xd800 ∨ (0xdfff < c.toNat ∧ c.toNat < 0x110000) := by
  have h := c.valid
  unfold UInt32.isValidChar Nat.isValidChar at h
  exact h

theorem char_toNat_lt (c : Char) : c.toNat < 0x110000 := by
  rcases char_valid_cases c with h | h <;> omega

theorem hexVal_hexDigitUp : ∀ d, d < 16 → hexVal (hexDigitUp d) = some d := by decide

theorem uriSafe_ascii {c : Char} (h : uriSafe c = true) : c.toNat < 128 := by
  simp only [uriSafe, Bool.or_eq_true, Bool.and_eq_true, decide_eq_true_eq,
    beq_iff_eq] at h
  simp only [or_assoc] at h
  rcases h with h | h | h | h | h | h | h | h | h | h | h | h
  all_goals first | omega | (subst h; decide)

theorem uriSafe_ne_percent {c : Char} (h : uriSafe c = true) : ¬ c = '%' := by
  intro hc
  subst hc
  revert h
  decide

theorem utf8_bytes_lt {n : Nat} (hn : n < 0x110000) :
    ∀ b ∈ utf8EncodeChar n, b < 256 := by
  unfold utf8EncodeChar
  split_ifs with h1 h2 h3 <;>
    · intro b hb
      simp only [List.mem_cons, List.not_mem_nil, or_false] at hb
      rcases hb with rfl | hb <;> try omega
      all_goals (rcases hb with rfl | hb <;> try omega)
      all_goals try (rcases hb with rfl | hb <;> try omega)
      all_goals try (cases hb)

theorem uriTokens_percent (h1 h2 : Char) (t : Str) :
    uriTokens ('%' :: h1 :: h2 :: t) = (do
      let d1 ← hexVal h1
      let d2 ← hexVal h2
      let ts ← uriTokens t
      pure (Sum.inr (d1 * 16 + d2) :: ts)) := by
  conv_lhs => unfold uriTokens
  rw [if_pos rfl]

theorem uriTokens_other {c : Char} (hc : ¬ c = '%') (t : Str) :
    uriTokens (c :: t) = (uriTokens t).map (fun ts => Sum.inl c :: ts) := by
  conv_lhs => unfold uriTokens
  rw [if_neg hc]

theorem uriTokens_pb {b : Nat} (hb : b < 256) (t : Str) :
    uriTokens (percentByte b ++ t) = (uriTokens t).map (fun ts => Sum.inr b :: ts) := by
  show uriTokens ('%' :: hexDigitUp (b / 16) :: hexDigitUp (b % 16) :: t) = _
  rw [uriTokens_percent]
  rw [hexVal_hexDigitUp (b / 16) (by omega), hexVal_hexDigitUp (b % 16) (by omega)]
  have hb' : b / 16 * 16 + b % 16 = b := by omega
  cases ht : uriTokens t <;> simp [ht, hb']

theorem uriTokens_bytes {bl : List Nat} (hb : ∀ b ∈ bl, b < 256) (t : Str) :
    uriTokens (bl.flatMap percentByte ++ t) =
      (uriTokens t).map (fun ts => bl.map Sum.inr ++ ts) := by
  induction bl with
  | nil => cases ht : uriTokens t <;> simp [ht]
  | cons b bl' ih =>
    rw [List.flatMap_cons, List.append_assoc]
    rw [uriTokens_pb (hb b (by simp)) _]
    rw [ih (fun y hy => hb y (by simp [hy]))]
    cases ht : uriTokens t <;> simp [ht]

theorem uriTokens_encode (s : Str) :
    uriTokens (uriEncode s) = some (s.flatMap charTokens) := by
  induction s with
  | nil => rfl
  | cons c s' ih =>
    show uriTokens (uriEncodeChar c ++ uriEncode s') = _
    by_cases hsafe : uriSafe c = true
    · rw [show uriEncodeChar c = [c] from by unfold uriEncodeChar; rw [if_pos hsafe]]
      rw [show ([c] : Str) ++ uriEncode s' = c :: uriEncode s' from rfl]
      rw [uriTokens_other (uriSafe_ne_percent hsafe)]
      rw [ih]
      simp [charTokens, hsafe]
    · rw [show uriEncodeChar c = (utf8EncodeChar c.toNat).flatMap percentByte from by
        unfold uriEncodeChar; rw [if_neg hsafe]]
      rw [uriTokens_bytes (utf8_bytes_lt (char_toNat_lt c))]
      rw [ih]
      simp [charTokens, hsafe]

theorem contByte_inr {b : Nat} (hb1 : 0x80 ≤ b) (hb2 : b < 0xc0) :
    contByte (Sum.inr b) = some b := by
  show (if contB b = true then some b else none) = some b
  rw [if_pos (by simp only [contB, Bool.and_eq_true, decide_eq_true_eq]; omega)]

theorem decTokF_succ (n : Nat) (ts : List (Char ⊕ Nat)) :
    decTokF (n + 1) ts = decStep (decTokF n) ts := rfl

theorem decTokF_nil (n : Nat) : decTokF n [] = some [] := by
  cases n <;> rfl

theorem decStep_inl (f : List (Char ⊕ Nat) → Option Str) (c : Char)
    (rest : List (Char ⊕ Nat)) :
    decStep f (Sum.inl c :: rest) = (f rest).map (fun s => c :: s) := rfl

theorem decStep_inr (f : List (Char ⊕ Nat) → Option Str) (b : Nat)
    (rest : List (Char ⊕ Nat)) :
    decStep f (Sum.inr b :: rest) =
      if b < 0x80 then (f rest).map (fun s => Char.ofNat b :: s)
      else if 0xc2 ≤ b ∧ b < 0xe0 then dec2 f b rest
      else if 0xe0 ≤ b ∧ b < 0xf0 then dec3 f b rest
      else if 0xf0 ≤ b ∧ b < 0xf5 then dec4 f b rest
      else none := rfl

theorem dec2_cons (f : List (Char ⊕ Nat) → Option Str) (b : Nat)
    (t1 : Char ⊕ Nat) (r : List (Char ⊕ Nat)) :
    dec2 f b (t1 :: r) =
      (contByte t1).bind (fun b1 =>
        (f r).map (fun s => Char.ofNat ((b - 0xc0) * 64 + (b1 - 0x80)) :: s)) := rfl

theorem dec3_cons (f : List (Char ⊕ Nat) → Option Str) (b : Nat)
    (t1 t2 : Char ⊕ Nat) (r : List (Char ⊕ Nat)) :
    dec3 f b (t1 :: t2 :: r) =
      (contByte t1).bind (fun b1 => (contByte t2).bind (fun b2 =>
        if 0x800 ≤ (b - 0xe0) * 4096 + (b1 - 0x80) * 64 + (b2 - 0x80) ∧
            ¬ (0xd800 ≤ (b - 0xe0) * 4096 + (b1 - 0x80) * 64 + (b2 - 0x80) ∧
               (b - 0xe0) * 4096 + (b1 - 0x80) * 64 + (b2 - 0x80) < 0xe000) then
          (f r).map (fun s =>
            Char.ofNat ((b - 0xe0) * 4096 + (b1 - 0x80) * 64 + (b2 - 0x80)) :: s)
        else none)) := rfl

theorem dec4_cons (f : List (Char ⊕ Nat) → Option Str) (b : Nat)
    (t1 t2 t3 : Char ⊕ Nat) (r : List (Char ⊕ Nat)) :
    dec4 f b (t1 :: t2 :: t3 :: r) =
      (contByte t1).bind (fun b1 => (contByte t2).bind (fun b2 =>
        (contByte t3).bind (fun b3 =>
          if 0x10000 ≤ (b - 0xf0) * 262144 + (b1 - 0x80) * 4096 +
                (b2 - 0x80) * 64 + (b3 - 0x80) ∧
              (b - 0xf0) * 262144 + (b1 - 0x80) * 4096 +
                (b2 - 0x80) * 64 + (b3 - 0x80) < 0x110000 then
            (f r).map (fun s =>
              Char.ofNat ((b - 0xf0) * 262144 + (b1 - 0x80) * 4096 +
                (b2 - 0x80) * 64 + (b3 - 0x80)) :: s)
          else none))) := rfl

theorem decTokF_char (c : Char) (n : Nat) (ts : List (Char ⊕ Nat)) :
    decTokF (n + 1) (charTokens c ++ ts) = (decTokF n ts).map (fun s => c :: s) := by
  rw [decTokF_succ]
  have hv := char_valid_cases c
  by_cases hsafe : uriSafe c = true
  · rw [show charTokens c = [Sum.inl c] from by unfold charTokens; rw [if_pos hsafe]]
    exact decStep_inl _ _ _
  · rw [show charTokens c = (utf8EncodeChar c.toNat).map Sum.inr from by
      unfold charTokens; rw [if_neg hsafe]]
    by_cases h1 : c.toNat < 0x80
    · rw [show utf8EncodeChar c.toNat = [c.toNat] from by
        unfold utf8EncodeChar; rw [if_pos h1]]
      show decStep (decTokF n) (Sum.inr c.toNat :: ts) = _
      rw [decStep_inr, if_pos h1, Char.ofNat_toNat]
    · by_cases h2 : c.toNat < 0x800
      · rw [show utf8EncodeChar c.toNat = [0xc0 + c.toNat / 64, 0x80 + c.toNat % 64] from by
          unfold utf8EncodeChar; rw [if_neg h1, if_pos h2]]
        show decStep (decTokF n)
          (Sum.inr (0xc0 + c.toNat / 64) :: Sum.inr (0x80 + c.toNat % 64) :: ts) = _
        rw [decStep_inr, if_neg (by omega), if_pos (by omega)]
        rw [dec2_cons, contByte_inr (by omega) (by omega), Option.some_bind]
        rw [show (0xc0 + c.toNat / 64 - 0xc0) * 64 + (0x80 + c.toNat % 64 - 0x80) =
          c.toNat from by omega, Char.ofNat_toNat]
      · by_cases h3 : c.toNat < 0x10000
        · rw [show utf8EncodeChar c.toNat =
              [0xe0 + c.toNat / 4096, 0x80 + c.toNat / 64 % 64, 0x80 + c.toNat % 64] from by
            unfold utf8EncodeChar; rw [if_neg h1, if_neg h2, if_pos h3]]
          show decStep (decTokF n)
            (Sum.inr (0xe0 + c.toNat / 4096) :: Sum.inr (0x80 + c.toNat / 64 % 64) ::
              Sum.inr (0x80 + c.toNat % 64) :: ts) = _
          rw [decStep_inr, if_neg (by omega), if_neg (by omega), if_pos (by omega)]
          rw [dec3_cons, contByte_inr (by omega) (by omega), Option.some_bind,
            contByte_inr (by omega) (by omega), Option.some_bind]
          rw [show (0xe0 + c.toNat / 4096 - 0xe0) * 4096 +
              (0x80 + c.toNat / 64 % 64 - 0x80) * 64 + (0x80 + c.toNat % 64 - 0x80) =
            c.toNat from by omega]
          rw [if_pos (by omega), Char.ofNat_toNat]
        · rw [show utf8EncodeChar c.toNat =
              [0xf0 + c.toNat / 262144, 0x80 + c.toNat / 4096 % 64,
               0x80 + c.toNat / 64 % 64, 0x80 + c.toNat % 64] from by
            unfold utf8EncodeChar; rw [if_neg h1, if_neg h2, if_neg h3]]
          show decStep (decTokF n)
            (Sum.inr (0xf0 + c.toNat / 262144) :: Sum.inr (0x80 + c.toNat / 4096 % 64) ::
              Sum.inr (0x80 + c.toNat / 64 % 64) :: Sum.inr (0x80 + c.toNat % 64) :: ts) = _
          rw [decStep_inr, if_neg (by omega), if_neg (by omega), if_neg (by omega),
            if_pos (by omega)]
          rw [dec4_cons, contByte_inr (by omega) (by omega), Option.some_bind,
            contByte_inr (by omega) (by omega), Option.some_bind,
            contByte_inr (by omega) (by omega), Option.some_bind]
          rw [show (0xf0 + c.toNat / 262144 - 0xf0) * 262144 +
              (0x80 + c.toNat / 4096 % 64 - 0x80) * 4096 +
              (0x80 + c.toNat / 64 % 64 - 0x80) * 64 + (0x80 + c.toNat % 64 - 0x80) =
            c.toNat from by omega]
          rw [if_pos (by omega), Char.ofNat_toNat]

theorem decTokF_flat (s : Str) : ∀ n : Nat,
    decTokF (s.length + n) (s.flatMap charTokens) = some s := by
  induction s with
  | nil => intro n; exact decTokF_nil _
  | cons c s' ih =>
    intro n
    rw [show (c :: s').length + n = s'.length + n + 1 from by
      simp only [List.length_cons]; omega]
    rw [List.flatMap_cons, decTokF_char, ih n]
    rfl

theorem charTokens_length_pos (c : Char) : 1 ≤ (charTokens c).length := by
  unfold charTokens
  split_ifs with h
  · simp
  · unfold utf8EncodeChar
    split_ifs <;> simp

theorem flat_charTokens_length (s : Str) :
    s.length ≤ (s.flatMap charTokens).length := by
  induction s with
  | nil => simp
  | cons c s' ih =>
    rw [List.flatMap_cons, List.length_append, List.length_cons]
    have := charTokens_length_pos c
    omega

theorem decodeTokens_flat (s : Str) :
    decodeTokens (s.flatMap charTokens) = some s := by
  unfold decodeTokens
  have h := flat_charTokens_length s
  obtain ⟨k, hk⟩ : ∃ k, (s.flatMap charTokens).length = s.length + k :=
    ⟨(s.flatMap charTokens).length - s.length, by omega⟩
  rw [hk]
  exact decTokF_flat s k

theorem uriDecode_uriEncode (s : Str) : uriDecode (uriEncode s) = some s := by
  unfold uriDecode
  rw [uriTokens_encode, Option.some_bind]
  exact decodeTokens_flat s

theorem digitChar_facts : ∀ d, d < 10 → isDigitC (digitChar d) = true ∧ digitVal (digitChar d) = d := by decide

theorem hexVal_hexDigitLow : ∀ d, d < 16 → hexVal (hexDigitLow d) = some d := by decide

theorem digit_head_facts {c : Char} (h : isDigitC c = true) :
    jsonWs c = false ∧ ¬ c = 'n' ∧ ¬ c = 't' ∧ ¬ c = 'f' ∧ ¬ c = '"' ∧
    ¬ c = '[' ∧ ¬ c = '\x7b' ∧ ¬ c = ']' ∧ ¬ c = '\x7d' ∧ ¬ c = ',' ∧ ¬ c = ':' := by
  refine ⟨?_, ?_, ?_, ?_, ?_, ?_, ?_, ?_, ?_, ?_, ?_⟩
  · simp only [jsonWs, Bool.or_eq_false_iff, beq_eq_false_iff_ne, ne_eq]
    refine ⟨⟨⟨?_, ?_⟩, ?_⟩, ?_⟩ <;> (intro he; subst he; exact absurd h (by decide))
  all_goals (intro he; subst he; exact absurd h (by decide))

theorem skipWs_cons {c : Char} (h : jsonWs c = false) (t : Str) :
    skipWs (c :: t) = c :: t := by
  show List.dropWhile jsonWs (c :: t) = c :: t
  rw [List.dropWhile_cons]
  rw [h]
  rfl

theorem digitsAux_eq (f n : Nat) : digitsAux (f + 1) n =
    if n < 10 then [digitChar n]
    else digitsAux f (n / 10) ++ [digitChar (n % 10)] := rfl

theorem digitsAux_spec : ∀ fuel n, n < fuel →
    (∀ c ∈ digitsAux fuel n, isDigitC c = true) ∧ digitsAux fuel n ≠ [] ∧
    ∀ acc, (digitsAux fuel n).foldl (fun a c => a * 10 + digitVal c) acc =
      acc * 10 ^ (digitsAux fuel n).length + n := by
  intro fuel
  induction fuel with
  | zero => intro n hn; omega
  | succ f ih =>
    intro n hn
    rw [digitsAux_eq]
    by_cases h10 : n < 10
    · rw [if_pos h10]
      refine ⟨?_, by simp, ?_⟩
      · intro c hc
        simp only [List.mem_singleton] at hc
        subst hc
        exact (digitChar_facts n h10).1
      · intro acc
        show acc * 10 + digitVal (digitChar n) = acc * 10 ^ ([digitChar n]).length + n
        rw [(digitChar_facts n h10).2]
        simp [pow_one]
    · rw [if_neg h10]
      have hd : n / 10 < f := by omega
      obtain ⟨hmem, hne, hfold⟩ := ih (n / 10) hd
      refine ⟨?_, by simp, ?_⟩
      · intro c hc
        rw [List.mem_append] at hc
        rcases hc with hc | hc
        · exact hmem c hc
        · simp only [List.mem_singleton] at hc
          subst hc
          exact (digitChar_facts (n % 10) (by omega)).1
      · intro acc
        rw [List.foldl_append, hfold acc]
        simp only [List.length_append, List.length_singleton]
        show (acc * 10 ^ (digitsAux f (n / 10)).length + n / 10) * 10 + digitVal (digitChar (n % 10)) =
          acc * 10 ^ ((digitsAux f (n / 10)).length + 1) + n
        rw [(digitChar_facts (n % 10) (by omega)).2, pow_succ, ← Nat.mul_assoc, Nat.add_mul]
        omega

theorem digitsOf_ne_nil (n : Nat) : digitsOf n ≠ [] :=
  (digitsAux_spec (n + 1) n (by omega)).2.1

theorem digitsOf_all (n : Nat) : ∀ c ∈ digitsOf n, isDigitC c = true :=
  (digitsAux_spec (n + 1) n (by omega)).1

theorem foldDigits_digitsOf (n : Nat) : foldDigits (digitsOf n) = n := by
  show (digitsAux (n + 1) n).foldl (fun a c => a * 10 + digitVal c) 0 = n
  rw [(digitsAux_spec (n + 1) n (by omega)).2.2 0]
  simp

theorem takeWhile_all_append {l r : Str} (hl : ∀ c ∈ l, isDigitC c = true)
    (hr : noLeadDigit r = true) : (l ++ r).takeWhile isDigitC = l := by
  induction l with
  | nil =>
    cases r with
    | nil => rfl
    | cons c t =>
      show List.takeWhile isDigitC (c :: t) = []
      rw [List.takeWhile_cons_of_neg]
      simp only [noLeadDigit, Bool.not_eq_true'] at hr
      simp [hr]
  | cons c t ih =>
    rw [List.cons_append, List.takeWhile_cons_of_pos (hl c (by simp)),
      ih (fun x hx => hl x (by simp [hx]))]

-- psb layer
theorem psbF_succ (n : Nat) (s : Str) : psbF (n + 1) s = psbStep (psbF n) s := rfl

theorem psbStep_quote (f : Str → Option (Str × Str)) (rest : Str) :
    psbStep f ('"' :: rest) = some ([], rest) := rfl

theorem psbStep_cons (f : Str → Option (Str × Str)) {c : Char} (rest : Str)
    (h1 : ¬ c = '"') (h2 : ¬ c = '\\') (h3 : ¬ c.toNat < 32) :
    psbStep f (c :: rest) = (f rest).map (fun p => (c :: p.1, p.2)) := by
  show (if c = '"' then some ([], rest)
    else if c = '\\' then psbEsc f rest
    else if c.toNat < 32 then none
    else (f rest).map (fun p => (c :: p.1, p.2))) = _
  rw [if_neg h1, if_neg h2, if_neg h3]

theorem psbStep_esc (f : Str → Option (Str × Str)) (e : Char) (rest : Str)
    (h : ¬ e = 'u') :
    psbStep f ('\\' :: e :: rest) =
      (unescape e).bind (fun c2 => (f rest).map (fun p => (c2 :: p.1, p.2))) := by
  show psbEsc f (e :: rest) = _
  show (if e = 'u' then psbU f rest
    else (unescape e).bind (fun c2 => (f rest).map (fun p => (c2 :: p.1, p.2)))) = _
  rw [if_neg h]

theorem psbStep_u (f : Str → Option (Str × Str)) (h1 h2 h3 h4 : Char) (rest : Str) :
    psbStep f ('\\' :: 'u' :: h1 :: h2 :: h3 :: h4 :: rest) =
      (hex4Val h1 h2 h3 h4).bind (fun v =>
        if v < 0xd800 ∨ 0xe000 ≤ v then
          (f rest).map (fun p => (Char.ofNat v :: p.1, p.2))
        else psbSur f v rest) := rfl

theorem hex4Val_00 {h3 h4 : Char} {v3 v4 : Nat} (hv3 : hexVal h3 = some v3)
    (hv4 : hexVal h4 = some v4) : hex4Val '0' '0' h3 h4 = some (v3 * 16 + v4) := by
  show (hexVal h3).bind (fun d3 => (hexVal h4).bind (fun d4 =>
    some (0 * 4096 + 0 * 256 + d3 * 16 + d4))) = _
  rw [hv3, hv4]
  simp only [Option.some_bind]
  exact congrArg some (by omega)

theorem psbF_esc_char {e c2 : Char} (he : ¬ e = 'u') (hu : unescape e = some c2)
    (F : Str → Option (Str × Str)) (X : Str) :
    psbStep F ('\\' :: e :: X) = (F X).map (fun p => (c2 :: p.1, p.2)) := by
  rw [psbStep_esc _ _ _ he, hu, Option.some_bind]

theorem psbF_ser (s : Str) : ∀ (n : Nat) (rest : Str),
    psbF (s.length + n + 1) (serStrBody s ++ '"' :: rest) = some (s, rest) := by
  induction s with
  | nil =>
    intro n rest
    show psbF (0 + n + 1) ('"' :: rest) = _
    rw [psbF_succ, psbStep_quote]
  | cons c s' ih =>
    intro n rest
    rw [show (c :: s').length + n + 1 = (s'.length + n + 1) + 1 from by
      simp only [List.length_cons]; omega]
    rw [psbF_succ]
    rw [show serStrBody (c :: s') ++ '"' :: rest =
        escapeChar c ++ (serStrBody s' ++ '"' :: rest) from by
      show (escapeChar c ++ serStrBody s') ++ '"' :: rest = _
      rw [List.append_assoc]]
    by_cases h1 : c = '"'
    · subst h1
      show psbStep (psbF (s'.length + n + 1))
        ('\\' :: '"' :: (serStrBody s' ++ '"' :: rest)) = _
      rw [psbF_esc_char (by decide) (show unescape '"' = some '"' from rfl), ih n rest]
      rfl
    · by_cases h2 : c = '\\'
      · subst h2
        show psbStep (psbF (s'.length + n + 1))
          ('\\' :: '\\' :: (serStrBody s' ++ '"' :: rest)) = _
        rw [psbF_esc_char (by decide) (show unescape '\\' = some '\\' from rfl), ih n rest]
        rfl
      · by_cases h3 : c = '\n'
        · subst h3
          show psbStep (psbF (s'.length + n + 1))
            ('\\' :: 'n' :: (serStrBody s' ++ '"' :: rest)) = _
          rw [psbF_esc_char (by decide) (show unescape 'n' = some '\n' from rfl), ih n rest]
          rfl
        · by_cases h4 : c = '\r'
          · subst h4
            show psbStep (psbF (s'.length + n + 1))
              ('\\' :: 'r' :: (serStrBody s' ++ '"' :: rest)) = _
            rw [psbF_esc_char (by decide) (show unescape 'r' = some '\r' from rfl), ih n rest]
            rfl
          · by_cases h5 : c = '\t'
            · subst h5
              show psbStep (psbF (s'.length + n + 1))
                ('\\' :: 't' :: (serStrBody s' ++ '"' :: rest)) = _
              rw [psbF_esc_char (by decide) (show unescape 't' = some '\t' from rfl), ih n rest]
              rfl
            · by_cases h6 : c.toNat = 8
              · have hc : c = Char.ofNat 8 := by
                  rw [← Char.ofNat_toNat c, h6]
                subst hc
                show psbStep (psbF (s'.length + n + 1))
                  ('\\' :: 'b' :: (serStrBody s' ++ '"' :: rest)) = _
                rw [psbF_esc_char (by decide)
                  (show unescape 'b' = some (Char.ofNat 8) from rfl), ih n rest]
                rfl
              · by_cases h7 : c.toNat = 12
                · have hc : c = Char.ofNat 12 := by
                    rw [← Char.ofNat_toNat c, h7]
                  subst hc
                  show psbStep (psbF (s'.length + n + 1))
                    ('\\' :: 'f' :: (serStrBody s' ++ '"' :: rest)) = _
                  rw [psbF_esc_char (by decide)
                    (show unescape 'f' = some (Char.ofNat 12) from rfl), ih n rest]
                  rfl
                · by_cases h8 : c.toNat < 32
                  · rw [show escapeChar c =
                        ['\\', 'u', '0', '0', hexDigitLow (c.toNat / 16),
                         hexDigitLow (c.toNat % 16)] from by
                      unfold escapeChar
                      rw [if_neg (by simp only [beq_iff_eq]; exact h1),
                          if_neg (by simp only [beq_iff_eq]; exact h2),
                          if_neg (by simp only [beq_iff_eq]; exact h3),
                          if_neg (by simp only [beq_iff_eq]; exact h4),
                          if_neg (by simp only [beq_iff_eq]; exact h5),
                          if_neg (by simp only [beq_iff_eq]; exact h6),
                          if_neg (by simp only [beq_iff_eq]; exact h7),
                          if_pos h8]]
                    show psbStep (psbF (s'.length + n + 1))
                      ('\\' :: 'u' :: '0' :: '0' :: hexDigitLow (c.toNat / 16) ::
                        hexDigitLow (c.toNat % 16) :: (serStrBody s' ++ '"' :: rest)) = _
                    rw [psbStep_u,
                      hex4Val_00 (hexVal_hexDigitLow _ (by omega))
                        (hexVal_hexDigitLow _ (by omega)),
                      Option.some_bind]
                    rw [if_pos (Or.inl (by omega : c.toNat / 16 * 16 + c.toNat % 16 < 0xd800))]
                    rw [ih n rest]
                    show some (Char.ofNat (c.toNat / 16 * 16 + c.toNat % 16) :: s', rest) = _
                    rw [show c.toNat / 16 * 16 + c.toNat % 16 = c.toNat from by omega,
                      Char.ofNat_toNat]
                  · rw [show escapeChar c = [c] from by
                      unfold escapeChar
                      rw [if_neg (by simp only [beq_iff_eq]; exact h1),
                          if_neg (by simp only [beq_iff_eq]; exact h2),
                          if_neg (by simp only [beq_iff_eq]; exact h3),
                          if_neg (by simp only [beq_iff_eq]; exact h4),
                          if_neg (by simp only [beq_iff_eq]; exact h5),
                          if_neg (by simp only [beq_iff_eq]; exact h6),
                          if_neg (by simp only [beq_iff_eq]; exact h7),
                          if_neg h8]]
                    show psbStep (psbF (s'.length + n + 1))
                      (c :: (serStrBody s' ++ '"' :: rest)) = _
                    rw [psbStep_cons _ _ h1 h2 h8, ih n rest]
                    rfl

theorem escapeChar_length_pos (c : Char) : 1 ≤ (escapeChar c).length := by
  unfold escapeChar
  split_ifs <;> simp

theorem serStrBody_length (s : Str) : s.length ≤ (serStrBody s).length := by
  induction s with
  | nil => simp [serStrBody]
  | cons c s' ih =>
    show s'.length + 1 ≤ (escapeChar c ++ serStrBody s').length
    rw [List.length_append]
    have := escapeChar_length_pos c
    omega

theorem parseStrBody_ser (s : Str) (rest : Str) :
    parseStrBody (serStrBody s ++ '"' :: rest) = some (s, rest) := by
  unfold parseStrBody
  have hlen := serStrBody_length s
  obtain ⟨k, hk⟩ : ∃ k, (serStrBody s ++ '"' :: rest).length + 1 = s.length + k + 1 :=
    ⟨(serStrBody s ++ '"' :: rest).length - s.length, by
      rw [List.length_append, List.length_cons]; omega⟩
  rw [hk]
  exact psbF_ser s k rest

theorem parseVal_succ (fuel : Nat) (s : Str) : parseVal (fuel + 1) s =
    match skipWs s with
    | [] => none
    | c :: r =>
      if c = 'n' then pvWord (("ull").toList) .null r
      else if c = 't' then pvWord (("rue").toList) (.jbool true) r
      else if c = 'f' then pvWord (("alse").toList) (.jbool false) r
      else if c = '"' then (parseStrBody r).map (fun p => (.jstr p.1, p.2))
      else if c = '[' then pvArr (fun t => parseItems fuel t) r
      else if c = '\x7b' then pvObj (fun t => parseFields fuel t) r
      else if isDigitC c then
        some (.num (foldDigits ((c :: r).takeWhile isDigitC)),
              (c :: r).drop ((c :: r).takeWhile isDigitC).length)
      else none := rfl

theorem parseItems_succ (fuel : Nat) (s : Str) : parseItems (fuel + 1) s =
    (parseVal fuel s).bind (fun p => piCont (fun t => parseItems fuel t) p.1 p.2) := rfl

theorem parseFields_succ (fuel : Nat) (s : Str) : parseFields (fuel + 1) s =
    match skipWs s with
    | '"' :: r => pfField (fun t => parseVal fuel t) (fun t => parseFields fuel t) r
    | _ => none := rfl

theorem parseVal_head (fuel : Nat) {s : Str} {c : Char} {r : Str}
    (h : skipWs s = c :: r) :
    parseVal (fuel + 1) s =
      (if c = 'n' then pvWord (("ull").toList) .null r
      else if c = 't' then pvWord (("rue").toList) (.jbool true) r
      else if c = 'f' then pvWord (("alse").toList) (.jbool false) r
      else if c = '"' then (parseStrBody r).map (fun p => (.jstr p.1, p.2))
      else if c = '[' then pvArr (fun t => parseItems fuel t) r
      else if c = '\x7b' then pvObj (fun t => parseFields fuel t) r
      else if isDigitC c then
        some (.num (foldDigits ((c :: r).takeWhile isDigitC)),
              (c :: r).drop ((c :: r).takeWhile isDigitC).length)
      else none) := by
  rw [parseVal_succ, h]

theorem parseFields_head (fuel : Nat) {s : Str} {r : Str}
    (h : skipWs s = '"' :: r) :
    parseFields (fuel + 1) s =
      pfField (fun t => parseVal fuel t) (fun t => parseFields fuel t) r := by
  rw [parseFields_succ, h]
  rfl

theorem piCont_comma (recI : Str → Option (List Json × Str)) (j : Json) (r : Str) :
    piCont recI j (',' :: r) = (recI r).map (fun q => (j :: q.1, q.2)) := rfl

theorem piCont_close (recI : Str → Option (List Json × Str)) (j : Json) (r : Str) :
    piCont recI j (']' :: r) = some ([j], r) := rfl

theorem pfCont_comma (recF : Str → Option (List (Str × Json) × Str)) (k : Str)
    (v : Json) (r : Str) :
    pfCont recF k v (',' :: r) = (recF r).map (fun q => ((k, v) :: q.1, q.2)) := rfl

theorem pfCont_close (recF : Str → Option (List (Str × Json) × Str)) (k : Str)
    (v : Json) (r : Str) :
    pfCont recF k v ('\x7d' :: r) = some ([(k, v)], r) := rfl

theorem pvArr_cons (recI : Str → Option (List Json × Str)) {c : Char} (r : Str)
    (hws : jsonWs c = false) (hc : ¬ c = ']') :
    pvArr recI (c :: r) = (recI (c :: r)).map (fun p => (.arr p.1, p.2)) := by
  unfold pvArr
  rw [skipWs_cons hws]
  split
  · rename_i r2 heq
    injection heq with hh _
    exact absurd hh hc
  · rfl

theorem pvObj_cons (recF : Str → Option (List (Str × Json) × Str)) {c : Char} (r : Str)
    (hws : jsonWs c = false) (hc : ¬ c = '\x7d') :
    pvObj recF (c :: r) = (recF (c :: r)).map (fun p => (.obj p.1, p.2)) := by
  unfold pvObj
  rw [skipWs_cons hws]
  split
  · rename_i r2 heq
    injection heq with hh _
    exact absurd hh hc
  · rfl

theorem serJson_head (j : Json) : ∃ c t, serJson j = c :: t ∧ jsonWs c = false ∧
    ¬ c = ']' ∧ ¬ c = ',' := by
  cases j with
  | null => exact ⟨'n', _, rfl, by decide, by decide, by decide⟩
  | jbool b =>
    cases b with
    | false => exact ⟨'f', _, rfl, by decide, by decide, by decide⟩
    | true => exact ⟨'t', _, rfl, by decide, by decide, by decide⟩
  | num m =>
    cases hd : digitsOf m with
    | nil => exact absurd hd (digitsOf_ne_nil m)
    | cons c ds =>
      have hcd : isDigitC c = true := digitsOf_all m c (by rw [hd]; simp)
      obtain ⟨hws, _, _, _, _, _, _, hbr, _, hcm, _⟩ := digit_head_facts hcd
      exact ⟨c, ds, by rw [show serJson (.num m) = digitsOf m from rfl, hd], hws, hbr, hcm⟩
  | jstr s => exact ⟨'"', _, rfl, by decide, by decide, by decide⟩
  | arr l => exact ⟨'[', _, rfl, by decide, by decide, by decide⟩
  | obj l => exact ⟨'\x7b', _, rfl, by decide, by decide, by decide⟩

theorem parseItems_ser (l : List Json) :
    l ≠ [] →
    (∀ j ∈ l, ∀ fuel rest, fuelVal j ≤ fuel → noLeadDigit rest = true →
      parseVal fuel (serJson j ++ rest) = some (j, rest)) →
    ∀ fuel rest, fuelItems l ≤ fuel →
    parseItems fuel (serItems l ++ ']' :: rest) = some (l, rest) := by
  induction l with
  | nil => intro h; exact absurd rfl h
  | cons j l' ih =>
    intro _ helem fuel rest hfuel
    have hmax : Nat.max (fuelVal j) (fuelItems l') + 1 ≤ fuel := by
      rw [show fuelItems (j :: l') = Nat.max (fuelVal j) (fuelItems l') + 1 from rfl] at hfuel
      exact hfuel
    have hle1 : fuelVal j ≤ Nat.max (fuelVal j) (fuelItems l') := Nat.le_max_left _ _
    have hle2 : fuelItems l' ≤ Nat.max (fuelVal j) (fuelItems l') := Nat.le_max_right _ _
    obtain ⟨f, rfl⟩ : ∃ f, fuel = f + 1 := ⟨fuel - 1, by omega⟩
    rw [parseItems_succ]
    cases l' with
    | nil =>
      rw [show serItems [j] ++ ']' :: rest = serJson j ++ ']' :: rest from rfl]
      rw [helem j (by simp) f (']' :: rest) (by omega) rfl, Option.some_bind]
      exact piCont_close _ _ _
    | cons j2 l'' =>
      rw [show serItems (j :: j2 :: l'') ++ ']' :: rest =
          serJson j ++ (',' :: (serItems (j2 :: l'') ++ ']' :: rest)) from by
        show (serJson j ++ ',' :: serItems (j2 :: l'')) ++ ']' :: rest = _
        rw [List.append_assoc]
        rfl]
      rw [helem j (by simp) f (',' :: (serItems (j2 :: l'') ++ ']' :: rest))
        (by omega) (by rfl), Option.some_bind]
      rw [piCont_comma]
      rw [ih (by simp) (fun x hx fuel2 rest2 => helem x (by simp [hx]) fuel2 rest2)
        f rest (by omega)]
      rfl

theorem parseFields_ser (l : List (Str × Json)) :
    l ≠ [] →
    (∀ p ∈ l, ∀ fuel rest, fuelVal p.2 ≤ fuel → noLeadDigit rest = true →
      parseVal fuel (serJson p.2 ++ rest) = some (p.2, rest)) →
    ∀ fuel rest, fuelFields l ≤ fuel →
    parseFields fuel (serFields l ++ '\x7d' :: rest) = some (l, rest) := by
  induction l with
  | nil => intro h; exact absurd rfl h
  | cons p l' ih =>
    obtain ⟨k, v⟩ := p
    intro _ helem fuel rest hfuel
    have hmax : Nat.max (fuelVal v) (fuelFields l') + 1 ≤ fuel := by
      rw [show fuelFields ((k, v) :: l') = Nat.max (fuelVal v) (fuelFields l') + 1 from
        rfl] at hfuel
      exact hfuel
    have hle1 : fuelVal v ≤ Nat.max (fuelVal v) (fuelFields l') := Nat.le_max_left _ _
    have hle2 : fuelFields l' ≤ Nat.max (fuelVal v) (fuelFields l') := Nat.le_max_right _ _
    obtain ⟨f, rfl⟩ : ∃ f, fuel = f + 1 := ⟨fuel - 1, by omega⟩
    cases l' with
    | nil =>
      rw [show serFields [(k, v)] ++ '\x7d' :: rest =
          '"' :: (serStrBody k ++ '"' :: (':' :: (serJson v ++ '\x7d' :: rest))) from by
        show (serStr k ++ ':' :: serJson v) ++ '\x7d' :: rest = _
        show (('"' :: (serStrBody k ++ ['"'])) ++ ':' :: serJson v) ++ '\x7d' :: rest = _
        simp [List.append_assoc]]
      rw [parseFields_head f (skipWs_cons (by decide) _)]
      unfold pfField
      rw [parseStrBody_ser k _, Option.some_bind]
      show (parseVal f (serJson v ++ '\x7d' :: rest)).bind
        (fun vp => pfCont (fun t => parseFields f t) k vp.1 vp.2) = _
      rw [helem (k, v) (by simp) f ('\x7d' :: rest)
        (show fuelVal v ≤ f by omega) (by rfl),
        Option.some_bind]
      exact pfCont_close _ _ _ _
    | cons p2 l'' =>
      rw [show serFields ((k, v) :: p2 :: l'') ++ '\x7d' :: rest =
          '"' :: (serStrBody k ++ '"' :: (':' :: (serJson v ++
            (',' :: (serFields (p2 :: l'') ++ '\x7d' :: rest))))) from by
        show (serStr k ++ ':' :: serJson v ++ ',' :: serFields (p2 :: l'')) ++
          '\x7d' :: rest = _
        show ((('"' :: (serStrBody k ++ ['"'])) ++ ':' :: serJson v) ++
          ',' :: serFields (p2 :: l'')) ++ '\x7d' :: rest = _
        simp [List.append_assoc]]
      rw [parseFields_head f (skipWs_cons (by decide) _)]
      unfold pfField
      rw [parseStrBody_ser k _, Option.some_bind]
      show (parseVal f (serJson v ++ (',' :: (serFields (p2 :: l'') ++ '\x7d' :: rest)))).bind
        (fun vp => pfCont (fun t => parseFields f t) k vp.1 vp.2) = _
      rw [helem (k, v) (by simp) f
        (',' :: (serFields (p2 :: l'') ++ '\x7d' :: rest))
        (show fuelVal v ≤ f by omega) (by rfl),
        Option.some_bind]
      rw [pfCont_comma]
      rw [ih (by simp) (fun x hx fuel2 rest2 => helem x (by simp [hx]) fuel2 rest2)
        f rest (by omega)]
      rfl

theorem parseVal_ser (j : Json) : ∀ fuel rest, fuelVal j ≤ fuel →
    noLeadDigit rest = true → parseVal fuel (serJson j ++ rest) = some (j, rest) := by
  have main : ∀ n (j : Json), sizeOf j ≤ n → ∀ fuel rest, fuelVal j ≤ fuel →
      noLeadDigit rest = true → parseVal fuel (serJson j ++ rest) = some (j, rest) := by
    intro n
    induction n using Nat.strong_induction_on with
    | _ n ihn =>
      intro j hsz fuel rest hfuel hld
      have hf1 : 1 ≤ fuelVal j := by
        cases j with
        | arr l => show 1 ≤ fuelItems l + 1; omega
        | obj l => show 1 ≤ fuelFields l + 1; omega
        | null => exact le_refl 1
        | jbool b => exact le_refl 1
        | num m => exact le_refl 1
        | jstr s => exact le_refl 1
      obtain ⟨f, rfl⟩ : ∃ f, fuel = f + 1 := ⟨fuel - 1, by omega⟩
      cases j with
      | null => rfl
      | jbool b => cases b <;> rfl
      | num m =>
        cases hd : digitsOf m with
        | nil => exact absurd hd (digitsOf_ne_nil m)
        | cons c ds =>
          have hcd : isDigitC c = true := digitsOf_all m c (by rw [hd]; simp)
          obtain ⟨hws, hn, ht, hf', hq, hbr, hob, _, _, _, _⟩ := digit_head_facts hcd
          rw [show serJson (.num m) ++ rest = c :: (ds ++ rest) from by
            rw [show serJson (.num m) = digitsOf m from rfl, hd]; rfl]
          rw [parseVal_head f (skipWs_cons hws _)]
          rw [if_neg hn, if_neg ht, if_neg hf', if_neg hq, if_neg hbr, if_neg hob,
            if_pos hcd]
          rw [show (c :: (ds ++ rest)) = (c :: ds) ++ rest from rfl]
          rw [takeWhile_all_append (by rw [← hd]; exact digitsOf_all m) hld]
          rw [← hd, foldDigits_digitsOf, List.drop_left]
      | jstr s =>
        rw [show serJson (.jstr s) ++ rest = '"' :: (serStrBody s ++ '"' :: rest) from by
          show ('"' :: (serStrBody s ++ ['"'])) ++ rest = _
          simp [List.append_assoc]]
        rw [parseVal_head f (skipWs_cons (by decide) _)]
        rw [if_neg (by decide), if_neg (by decide), if_neg (by decide), if_pos rfl]
        rw [parseStrBody_ser]
        rfl
      | arr l =>
        cases l with
        | nil => rfl
        | cons j0 l' =>
          have hfi : fuelItems (j0 :: l') ≤ f := by
            have hfe : fuelVal (.arr (j0 :: l')) = fuelItems (j0 :: l') + 1 := rfl
            omega
          have helem : ∀ x ∈ j0 :: l', ∀ fuel2 rest2, fuelVal x ≤ fuel2 →
              noLeadDigit rest2 = true →
              parseVal fuel2 (serJson x ++ rest2) = some (x, rest2) := by
            intro x hx
            have hlt : sizeOf x < sizeOf (Json.arr (j0 :: l')) := by
              have hm := List.sizeOf_lt_of_mem hx
              have harr : sizeOf (Json.arr (j0 :: l')) = 1 + sizeOf (j0 :: l') := by
                simp
              omega
            exact ihn (sizeOf x) (by omega) x le_rfl
          rw [show serJson (.arr (j0 :: l')) ++ rest =
              '[' :: (serItems (j0 :: l') ++ ']' :: rest) from by
            show ('[' :: (serItems (j0 :: l') ++ [']'])) ++ rest = _
            simp [List.append_assoc]]
          rw [parseVal_head f (skipWs_cons (by decide) _)]
          rw [if_neg (by decide), if_neg (by decide), if_neg (by decide),
            if_neg (by decide), if_pos rfl]
          obtain ⟨c, t0, hct, hws, hbr, _⟩ := serJson_head j0
          have hhead : serItems (j0 :: l') ++ ']' :: rest =
              c :: (t0 ++ (serItems (j0 :: l') ++ ']' :: rest).drop (t0.length + 1)) := by
            cases l' with
            | nil =>
              rw [show serItems [j0] = serJson j0 from rfl, hct]
              simp
            | cons j1 l'' =>
              rw [show serItems (j0 :: j1 :: l'') =
                serJson j0 ++ ',' :: serItems (j1 :: l'') from rfl, hct]
              simp
          rw [hhead, pvArr_cons _ _ hws hbr, ← hhead]
          rw [parseItems_ser _ (by simp) helem f rest hfi]
          rfl
      | obj l =>
        cases l with
        | nil => rfl
        | cons p0 l' =>
          obtain ⟨k0, v0⟩ := p0
          have hfi : fuelFields ((k0, v0) :: l') ≤ f := by
            have hfe : fuelVal (.obj ((k0, v0) :: l')) =
              fuelFields ((k0, v0) :: l') + 1 := rfl
            omega
          have helem : ∀ x ∈ (k0, v0) :: l', ∀ fuel2 rest2, fuelVal x.2 ≤ fuel2 →
              noLeadDigit rest2 = true →
              parseVal fuel2 (serJson x.2 ++ rest2) = some (x.2, rest2) := by
            intro x hx
            have hlt : sizeOf x.2 < sizeOf (Json.obj ((k0, v0) :: l')) := by
              have hm := List.sizeOf_lt_of_mem hx
              have hobj : sizeOf (Json.obj ((k0, v0) :: l')) =
                  1 + sizeOf ((k0, v0) :: l') := by simp
              have hx2 : sizeOf x.2 < sizeOf x := by
                obtain ⟨xk, xv⟩ := x
                simp only [Prod.mk.sizeOf_spec]
                omega
              omega
            exact ihn (sizeOf x.2) (by omega) x.2 le_rfl
          rw [show serJson (.obj ((k0, v0) :: l')) ++ rest =
              '\x7b' :: (serFields ((k0, v0) :: l') ++ '\x7d' :: rest) from by
            show ('\x7b' :: (serFields ((k0, v0) :: l') ++ ['\x7d'])) ++ rest = _
            simp [List.append_assoc]]
          rw [parseVal_head f (skipWs_cons (by decide) _)]
          rw [if_neg (by decide), if_neg (by decide), if_neg (by decide),
            if_neg (by decide), if_neg (by decide), if_pos rfl]
          cases l' with
          | nil =>
            have hhead : serFields [(k0, v0)] ++ '\x7d' :: rest =
                '"' :: (((serStrBody k0 ++ ['"']) ++ ':' :: serJson v0) ++
                  '\x7d' :: rest) := rfl
            rw [hhead, pvObj_cons _ _ (by decide) (by decide), ← hhead]
            rw [parseFields_ser _ (by simp) helem f rest hfi]
            rfl
          | cons p1 l'' =>
            have hhead : serFields ((k0, v0) :: p1 :: l'') ++ '\x7d' :: rest =
                '"' :: ((((serStrBody k0 ++ ['"']) ++ ':' :: serJson v0) ++
                  ',' :: serFields (p1 :: l'')) ++ '\x7d' :: rest) := rfl
            rw [hhead, pvObj_cons _ _ (by decide) (by decide), ← hhead]
            rw [parseFields_ser _ (by simp) helem f rest hfi]
            rfl
  exact fun fuel rest => main (sizeOf j) j le_rfl fuel rest

theorem fuelVal_le (j : Json) : fuelVal j ≤ (serJson j).length + 1 := by
  have main : ∀ n (j : Json), sizeOf j ≤ n → fuelVal j ≤ (serJson j).length + 1 := by
    intro n
    induction n using Nat.strong_induction_on with
    | _ n ihn =>
      intro j hsz
      cases j with
      | null => show 1 ≤ _; omega
      | jbool b => show 1 ≤ _; omega
      | num m => show 1 ≤ _; omega
      | jstr s => show 1 ≤ _; omega
      | arr l =>
        have helem : ∀ x ∈ l, fuelVal x ≤ (serJson x).length + 1 := by
          intro x hx
          have hm := List.sizeOf_lt_of_mem hx
          have harr : sizeOf (Json.arr l) = 1 + sizeOf l := by simp
          exact ihn (sizeOf x) (by omega) x le_rfl
        have hitems : ∀ l', (∀ x ∈ l', fuelVal x ≤ (serJson x).length + 1) →
            fuelItems l' ≤ (serItems l').length + 2 := by
          intro l'
          induction l' with
          | nil => intro _; show 1 ≤ _; omega
          | cons x l'' ih =>
            intro hall
            cases l'' with
            | nil =>
              have h1 := hall x (by simp)
              show Nat.max (fuelVal x) (fuelItems []) + 1 ≤ (serJson x).length + 2
              have h2 : fuelItems ([] : List Json) = 1 := rfl
              have hm : Nat.max (fuelVal x) (fuelItems []) ≤ (serJson x).length + 1 :=
                Nat.max_le.mpr ⟨h1, by rw [h2]; omega⟩
              omega
            | cons y l''' =>
              have h1 := hall x (by simp)
              have h2 := ih (fun z hz => hall z (by simp [hz]))
              show Nat.max (fuelVal x) (fuelItems (y :: l''')) + 1 ≤
                (serJson x ++ ',' :: serItems (y :: l''')).length + 2
              rw [List.length_append, List.length_cons]
              have hj1 : 1 ≤ (serJson x).length := by
                obtain ⟨c0, t0, hct, _, _, _⟩ := serJson_head x
                rw [hct]
                simp
              have hm : Nat.max (fuelVal x) (fuelItems (y :: l''')) ≤
                  (serJson x).length + (serItems (y :: l''')).length + 1 :=
                Nat.max_le.mpr ⟨by omega, by omega⟩
              omega
        show fuelItems l + 1 ≤ ('[' :: (serItems l ++ [']'])).length + 1
        rw [List.length_cons, List.length_append]
        have := hitems l helem
        simp only [List.length_singleton]
        omega
      | obj l =>
        have helem : ∀ x ∈ l, fuelVal x.2 ≤ (serJson x.2).length + 1 := by
          intro x hx
          have hm := List.sizeOf_lt_of_mem hx
          have hobj : sizeOf (Json.obj l) = 1 + sizeOf l := by simp
          have hx2 : sizeOf x.2 < sizeOf x := by
            obtain ⟨xk, xv⟩ := x
            simp only [Prod.mk.sizeOf_spec]
            omega
          exact ihn (sizeOf x.2) (by omega) x.2 le_rfl
        have hfields : ∀ l', (∀ x ∈ l', fuelVal x.2 ≤ (serJson x.2).length + 1) →
            fuelFields l' ≤ (serFields l').length + 2 := by
          intro l'
          induction l' with
          | nil => intro _; show 1 ≤ _; omega
          | cons x l'' ih =>
            obtain ⟨xk, xv⟩ := x
            intro hall
            cases l'' with
            | nil =>
              have h1 : fuelVal xv ≤ (serJson xv).length + 1 := hall (xk, xv) (by simp)
              show Nat.max (fuelVal xv) (fuelFields []) + 1 ≤
                (serStr xk ++ ':' :: serJson xv).length + 2
              have h2 : fuelFields ([] : List (Str × Json)) = 1 := rfl
              rw [List.length_append, List.length_cons]
              have hm : Nat.max (fuelVal xv) (fuelFields []) ≤ (serJson xv).length + 1 :=
                Nat.max_le.mpr ⟨h1, by rw [h2]; omega⟩
              omega
            | cons y l''' =>
              have h1 : fuelVal xv ≤ (serJson xv).length + 1 := hall (xk, xv) (by simp)
              have h2 := ih (fun z hz => hall z (by simp [hz]))
              show Nat.max (fuelVal xv) (fuelFields (y :: l''')) + 1 ≤
                ((serStr xk ++ ':' :: serJson xv) ++ ',' :: serFields (y :: l''')).length + 2
              rw [List.length_append, List.length_append, List.length_cons,
                List.length_cons]
              have hj1 : 1 ≤ (serJson xv).length := by
                obtain ⟨c0, t0, hct, _, _, _⟩ := serJson_head xv
                rw [hct]
                simp
              have hm : Nat.max (fuelVal xv) (fuelFields (y :: l''')) ≤
                  (serJson xv).length + (serFields (y :: l''')).length + 1 :=
                Nat.max_le.mpr ⟨by omega, by omega⟩
              omega
        show fuelFields l + 1 ≤ ('\x7b' :: (serFields l ++ ['\x7d'])).length + 1
        rw [List.length_cons, List.length_append]
        have := hfields l helem
        simp only [List.length_singleton]
        omega
  exact main (sizeOf j) j le_rfl

theorem jsonParse_serJson (j : Json) : jsonParse (serJson j) = some j := by
  have h := parseVal_ser j ((serJson j).length + 2) [] (by
    have := fuelVal_le j
    omega) rfl
  rw [List.append_nil] at h
  unfold jsonParse
  rw [h]
  rfl

theorem hexDigitUp_lt (n : Nat) : (hexDigitUp n).toNat < 128 := by
  unfold hexDigitUp
  rcases Nat.lt_or_ge n 16 with h | h
  · interval_cases n <;> decide
  · rw [List.getD_eq_default]
    · decide
    · have h16 : (("0123456789ABCDEF").toList).length = 16 := rfl
      omega

theorem percentByte_ascii (b : Nat) : ∀ x ∈ percentByte b, x.toNat < 256 := by
  intro x hx
  simp only [percentByte, List.mem_cons, List.not_mem_nil, or_false] at hx
  rcases hx with rfl | rfl | rfl
  · decide
  · exact lt_trans (hexDigitUp_lt _) (by omega)
  · exact lt_trans (hexDigitUp_lt _) (by omega)

theorem uriEncode_ascii (s : Str) : ∀ c ∈ uriEncode s, c.toNat < 256 := by
  intro c hc
  obtain ⟨a, ha, hc2⟩ := List.mem_flatMap.1 hc
  unfold uriEncodeChar at hc2
  split_ifs at hc2 with hsafe
  · simp only [List.mem_singleton] at hc2
    subst hc2
    exact lt_trans (uriSafe_ascii hsafe) (by omega)
  · obtain ⟨b, _, hcb⟩ := List.mem_flatMap.1 hc2
    exact percentByte_ascii b c hcb

theorem decodeShare_encodeShare (d : Wiki) :
    decodeShare (b64Encode ((uriEncode (serJson (wikiJson d))).map Char.toNat)) =
      some (wikiJson d) := by
  show (atobStr (b64Encode ((uriEncode (serJson (wikiJson d))).map Char.toNat))).bind
    (fun t => (uriDecode t).bind (fun u => jsonParse u)) = _
  rw [atobStr_b64Encode (uriEncode_ascii _), Option.some_bind,
    uriDecode_uriEncode, Option.some_bind]
  exact jsonParse_serJson _

/-- C2: for every document, decoding the share link produced by encoding it
(JSON-stringify, URI-component-encode, base64-encode, then base64-decode,
URI-component-decode, JSON-parse) succeeds and returns the serialized
document value itself: the same title, the same number of sections, and the
same content for every section.  The code has no length threshold (the
`try`/`catch` around `btoa` guards the encoding exception only), so the
round trip holds for every document, in particular for any payload under
the spec's URL length threshold. -/
theorem C2_share_roundtrip (d : Wiki) :
    ∃ link : Str,
      encodeShare d = some link ∧
      decodeShare link = some (wikiJson d) ∧
      getField (wikiJson d) (("title").toList) = some (.jstr d.title) ∧
      getField (wikiJson d) (("sections").toList) =
        some (.arr (d.sections.map sectionJson)) ∧
      (d.sections.map sectionJson).length = d.sections.length ∧
      d.sections.map (fun s => getField (sectionJson s) (("content").toList)) =
        d.sections.map (fun s => some (.jstr s.content)) := by
  refine ⟨b64Encode ((uriEncode (serJson (wikiJson d))).map Char.toNat),
    ?_, decodeShare_encodeShare d, rfl, rfl, List.length_map _ _, ?_⟩
  · show btoaStr (uriEncode (serJson (wikiJson d))) = _
    exact btoaStr_of_ascii (uriEncode_ascii _)
  · exact List.map_congr_left (fun s _ => rfl)

theorem C2_share_roundtrip_witness :
    ∃ link : Str,
      encodeShare docCitation = some link ∧
      decodeShare link = some (wikiJson docCitation) ∧
      getField (wikiJson docCitation) (("title").toList) =
        some (.jstr docCitation.title) ∧
      getField (wikiJson docCitation) (("sections").toList) =
        some (.arr (docCitation.sections.map sectionJson)) ∧
      (docCitation.sections.map sectionJson).length = docCitation.sections.length ∧
      docCitation.sections.map
          (fun s => getField (sectionJson s) (("content").toList)) =
        docCitation.sections.map (fun s => some (.jstr s.content)) :=
  C2_share_roundtrip docCitation
